import Mathlib

/-!
Verification development for the dependency-graph core of the
Graph-MCP-Server repository (`src/graph_builder.py`).

The Python code is shallowly embedded: the `networkx.DiGraph` is a list of
nodes plus an association list of directed edges carrying a relation tag
(a `DiGraph` stores at most one edge per ordered pair; re-adding an edge
overwrites its attributes in place), Python dicts become insertion-ordered
association lists with overwrite-on-reassignment, and Python sets become
duplicate-free lists maintained by insertion order.  The tree-sitter parse
tree of a file is abstracted as `PyTree` (class definitions, function
definitions carrying the decoded callee texts of all call expressions in
their bodies, and import statements); tree-sitter itself is external C
code, so the decoded node texts are taken as the input.  All string
operations used by the Python code (`split`, `endswith`, substring tests,
`replace`, `lower`) are re-implemented by structural recursion on the
character list so that every definition evaluates inside the kernel.
-/

/-! ## String utilities (mirroring the Python string operations used) -/

/-- Does the list start with the given pattern (`leadsWith pat l`)? -/
def leadsWith : List Char → List Char → Bool
  | [], _ => true
  | _ :: _, [] => false
  | p :: ps, c :: cs => p == c && leadsWith ps cs

/-- `strLeads s pat`: Python `s.startswith(pat)`. -/
def strLeads (s pat : String) : Bool :=
  leadsWith pat.data s.data

/-- `strEndsWith s pat`: Python `s.endswith(pat)`. -/
def strEndsWith (s pat : String) : Bool :=
  leadsWith pat.data.reverse s.data.reverse

/-- Substring search on character lists. -/
def subSearch (pat : List Char) : List Char → Bool
  | [] => pat.isEmpty
  | c :: cs => leadsWith pat (c :: cs) || subSearch pat cs

/-- `containsStr hay needle`: Python `needle in hay`. -/
def containsStr (hay needle : String) : Bool :=
  subSearch needle.data hay.data

/-- Split a character list at every occurrence of `sep` (keeping empty
pieces), accumulator in reverse. -/
def splitChAux (sep : Char) : List Char → List Char → List (List Char)
  | [], acc => [acc.reverse]
  | c :: cs, acc =>
    if c == sep then acc.reverse :: splitChAux sep cs []
    else splitChAux sep cs (c :: acc)

/-- `splitCh sep s`: Python `s.split(sep)` for a single-character separator. -/
def splitCh (sep : Char) (s : String) : List String :=
  (splitChAux sep s.data []).map (fun l => String.mk l)

/-- Python `s.split(".")`. -/
def splitDot (s : String) : List String :=
  splitCh '.' s

/-- Python `code.split("\n")`. -/
def splitLines (s : String) : List String :=
  splitCh '\n' s

/-- Python `s.split(".")[-1]` (the base name of a possibly dotted name). -/
def lastSeg (s : String) : String :=
  (splitDot s).getLastD ""

/-- Python `"\n".join lines`. -/
def joinNL : List String → String
  | [] => ""
  | [s] => s
  | s :: rest => s ++ "\n" ++ joinNL rest

/-- Python `module.replace(".", "/")`. -/
def replaceDots (s : String) : String :=
  String.mk (s.data.map (fun c => if c == '.' then '/' else c))

/-- Python `s.lower()` (ASCII, as used on identifier-like names). -/
def lowerStr (s : String) : String :=
  String.mk (s.data.map Char.toLower)

/-- Python regex `\s` character class. -/
def isSpaceCh (c : Char) : Bool :=
  c == ' ' || c == '\t' || c == '\n' || c == '\r' || c == '\x0b' || c == '\x0c'

/-- Python regex `\w` character class (ASCII letters, digits, underscore). -/
def isWordCh (c : Char) : Bool :=
  c.isAlphanum || c == '_'

/-- Drop a literal pattern from the front of a character list. -/
def dropLit : List Char → List Char → Option (List Char)
  | [], l => some l
  | _ :: _, [] => none
  | p :: ps, c :: cs => if p == c then dropLit ps cs else none

/-- `List.span`-style take of a maximal run satisfying `p`. -/
def takeRun (p : Char → Bool) : List Char → List Char × List Char
  | [] => ([], [])
  | c :: cs =>
    if p c then
      let (r, rest) := takeRun p cs
      (c :: r, rest)
    else ([], c :: cs)

/-! ## Python container operations

Python `dict` is an insertion-ordered map with overwrite-on-reassignment;
Python `set` (as used here: built by repeated `add`) is modelled as a
duplicate-free list in first-insertion order. -/

/-- Dict assignment `d[k] = v` (overwrite in place, else append). -/
def dinsert {γ : Type} : List (String × γ) → String → γ → List (String × γ)
  | [], k, v => [(k, v)]
  | (k0, v0) :: rest, k, v =>
    if k0 = k then (k0, v) :: rest else (k0, v0) :: dinsert rest k v

/-- Dict lookup `d.get(k)`. -/
def dlookup {γ : Type} : List (String × γ) → String → Option γ
  | [], _ => none
  | (k0, v0) :: rest, k => if k0 = k then some v0 else dlookup rest k

/-- Dict lookup with default, `d.get(k, dflt)`. -/
def dlookupD {γ : Type} (l : List (String × γ)) (k : String) (dflt : γ) : γ :=
  (dlookup l k).getD dflt

/-- Dict membership `k in d`. -/
def dcontains {γ : Type} (l : List (String × γ)) (k : String) : Bool :=
  (dlookup l k).isSome

/-- In-place update of the value stored under an existing key
(`d[k].append(...)` / `d[k].add(...)`; no-op when the key is absent —
the Python code only mutates keys it has already created). -/
def dmodify {γ : Type} : List (String × γ) → String → (γ → γ) → List (String × γ)
  | [], _, _ => []
  | (k0, v0) :: rest, k, f =>
    if k0 = k then (k0, f v0) :: rest else (k0, v0) :: dmodify rest k f

/-- Set insertion `s.add(x)`: keep the list duplicate-free. -/
def sinsert (l : List String) (x : String) : List String :=
  if x ∈ l then l else l ++ [x]

/-- Set update `s.update(xs)`. -/
def sunion (l : List String) (xs : List String) : List String :=
  xs.foldl sinsert l

/-! ## The graph (networkx `DiGraph`)

A `DiGraph` stores at most one edge per ordered pair of nodes;
`add_edge(u, v, relation=r)` inserts the missing endpoints as nodes and
either appends a fresh edge or overwrites the `relation` attribute of the
existing edge in place. -/

/-- The fixed set of relation tags used by `graph_builder.py`. -/
inductive ERel where
  | contains
  | imports
  | uses
  | calls
  | may_call
  | instantiates
  | instantiates_uses
  | references
deriving DecidableEq, Repr

/-- A directed edge: source, target, relation tag. -/
abbrev GEdge := String × String × ERel

/-- Relation of the first edge matching the ordered pair, if any. -/
def edgesRel : List GEdge → String → String → Option ERel
  | [], _, _ => none
  | e :: rest, u, v =>
    if e.1 = u ∧ e.2.1 = v then some e.2.2 else edgesRel rest u v

/-- Overwrite the relation on every edge matching the ordered pair. -/
def setRel : List GEdge → String → String → ERel → List GEdge
  | [], _, _, _ => []
  | e :: rest, u, v, r =>
    (if e.1 = u ∧ e.2.1 = v then (u, v, r) else e) :: setRel rest u v r

/-- Number of stored edges on an ordered pair. -/
def edgesCount : List GEdge → String → String → Nat
  | [], _, _ => 0
  | e :: rest, u, v =>
    (if e.1 = u ∧ e.2.1 = v then 1 else 0) + edgesCount rest u v

/-- Sources of the edges pointing at `v`, in edge-insertion order. -/
def predsE : List GEdge → String → List String
  | [], _ => []
  | e :: rest, v => if e.2.1 = v then e.1 :: predsE rest v else predsE rest v

/-- Targets of the edges leaving `u`, in edge-insertion order. -/
def succsE : List GEdge → String → List String
  | [], _ => []
  | e :: rest, u => if e.1 = u then e.2.1 :: succsE rest u else succsE rest u

/-- The embedded `networkx.DiGraph`. -/
structure Graph where
  nodes : List String
  edges : List GEdge
deriving DecidableEq, Repr

/-- The empty graph `nx.DiGraph()`. -/
def gEmpty : Graph := ⟨[], []⟩

/-- `graph.add_node(n, ...)`: node attributes are not modelled; re-adding
an existing node is a no-op on the node set. -/
def addNode (g : Graph) (n : String) : Graph :=
  if n ∈ g.nodes then g else { g with nodes := g.nodes ++ [n] }

/-- `graph.has_edge(u, v)`. -/
def hasEdge (g : Graph) (u v : String) : Bool :=
  (edgesRel g.edges u v).isSome

/-- `graph.get_edge_data(u, v)["relation"]` (as an `Option`). -/
def getRel (g : Graph) (u v : String) : Option ERel :=
  edgesRel g.edges u v

/-- The edge write of `add_edge` (after the endpoints exist as nodes):
either overwrite the relation of the existing edge in place or append a
fresh edge. -/
def addEdgeAux (g : Graph) (u v : String) (r : ERel) : Graph :=
  if hasEdge g u v then { g with edges := setRel g.edges u v r }
  else { g with edges := g.edges ++ [(u, v, r)] }

/-- `graph.add_edge(u, v, relation=r)`: insert missing endpoints, then
write the edge. -/
def addEdge (g : Graph) (u v : String) (r : ERel) : Graph :=
  addEdgeAux (addNode (addNode g u) v) u v r

/-- `graph.predecessors(v)`. -/
def preds (g : Graph) (v : String) : List String :=
  predsE g.edges v

/-- `graph.successors(u)`. -/
def succs (g : Graph) (u : String) : List String :=
  succsE g.edges u

/-- Edges on the ordered pair `(u, v)` (for the at-most-one-edge facts). -/
def pairCount (g : Graph) (u v : String) : Nat :=
  edgesCount g.edges u v

/-! ## Builder state (`GraphBuilder.__init__`)

`symbol_locations` maps a qualified symbol name to its record
(`file, line, end_line, code, type`); the regex fallback parser does not
put an `end_line` key into the record, which is modelled by
`end_line : Option Nat` together with `recFields` listing the keys the
Python dict actually holds. -/

/-- One `symbol_locations` record. -/
structure SymbolInfo where
  file : String
  line : Nat
  end_line : Option Nat
  code : String
  type : String
deriving DecidableEq, Repr

/-- The keys present in the underlying Python dict of a symbol record. -/
def recFields (si : SymbolInfo) : List String :=
  ["file", "line"] ++
    (match si.end_line with
     | some _ => ["end_line"]
     | none => []) ++ ["code", "type"]

/-- The mutable state of a `GraphBuilder`. -/
structure Builder where
  graph : Graph
  symbol_locations : List (String × SymbolInfo)
  file_symbols : List (String × List String)
  imports : List (String × List String)
  symbol_calls : List (String × List String)
  symbol_instantiates : List (String × List String)
deriving DecidableEq, Repr

/-- `GraphBuilder.__init__`: everything empty. -/
def initBuilder : Builder :=
  ⟨gEmpty, [], [], [], [], []⟩

/-! ## The tree-sitter parse tree, abstracted

Tree-sitter is an external C library; its parse of one Python file is
abstracted as a list of `PyTree` nodes.  A `funcDef` carries the decoded
texts of the callee of every call expression anywhere in its body (what
`find_calls` collects), an `importFromStmt` carries the module and the
imported names (the extra `dotted_name` children). -/

inductive PyTree where
  | classDef (name : String) (sLine eLine : Nat) (children : List PyTree)
  | funcDef (name : String) (sLine eLine : Nat) (callees : List String)
  | importFromStmt (module : String) (names : List String)
  | importStmt (module : String)

/-- `extract_calls_and_instantiations`: every callee text goes into the
call set; a callee whose last dotted segment starts with an uppercase
character also goes into the instantiation set. -/
def extractCI (callees : List String) : List String × List String :=
  callees.foldl
    (fun acc t =>
      let calls := sinsert acc.1 t
      let base := lastSeg t
      let insts :=
        match base.data with
        | [] => acc.2
        | c :: _ => if c.isUpper then sinsert acc.2 t else acc.2
      (calls, insts))
    ([], [])

/-- Python `"\n".join(lines[s:e+1])` (the verbatim source slice). -/
def sliceCode (lines : List String) (s e : Nat) : String :=
  joinNL ((lines.drop s).take (e + 1 - s))

mutual
/-- One step of `_parse_with_tree_sitter`'s `visit`. -/
def visitOne (lines : List String) (rel : String) (pc : Option String)
    (b : Builder) : PyTree → Builder
  | .classDef name sLine eLine children =>
    let info : SymbolInfo :=
      ⟨rel, sLine + 1, some (eLine + 1), sliceCode lines sLine eLine, "class"⟩
    let b : Builder :=
      { b with
        symbol_locations := dinsert b.symbol_locations name info
        file_symbols := dmodify b.file_symbols rel (fun v => v ++ [name])
        graph := addNode b.graph name }
    visitMany lines rel (some name) b children
  | .funcDef name sLine eLine callees =>
    let fullName :=
      match pc with
      | some c => c ++ "." ++ name
      | none => name
    let info : SymbolInfo :=
      ⟨rel, sLine + 1, some (eLine + 1), sliceCode lines sLine eLine,
        if pc.isSome then "method" else "function"⟩
    let b : Builder :=
      { b with
        symbol_locations := dinsert b.symbol_locations fullName info
        file_symbols := dmodify b.file_symbols rel (fun v => v ++ [fullName])
        graph := addNode b.graph fullName }
    let b : Builder :=
      match pc with
      | some c => { b with graph := addEdge b.graph c fullName .contains }
      | none => b
    let ci := extractCI callees
    { b with
      symbol_calls := dinsert b.symbol_calls fullName ci.1
      symbol_instantiates := dinsert b.symbol_instantiates fullName ci.2 }
  | .importFromStmt module names =>
    let b : Builder :=
      { b with
        imports := dmodify b.imports rel
          (fun v => sinsert v (replaceDots module ++ ".py")) }
    names.foldl
      (fun b n =>
        { b with
          imports := dmodify b.imports rel
            (fun v => sinsert v ("import:" ++ module ++ "." ++ n)) })
      b
  | .importStmt module =>
    { b with
      imports := dmodify b.imports rel
        (fun v => sinsert v (replaceDots module ++ ".py")) }

/-- The recursion of `visit` over a node's children. -/
def visitMany (lines : List String) (rel : String) (pc : Option String)
    (b : Builder) : List PyTree → Builder
  | [] => b
  | t :: ts => visitMany lines rel pc (visitOne lines rel pc b t) ts
end

/-- `_parse_with_tree_sitter code rel_path`. -/
def tsParse (b : Builder) (rel : String) (text : String)
    (tree : List PyTree) : Builder :=
  visitMany (splitLines text) rel none b tree

/-! ## The regex fallback parser (`_parse_with_regex`)

The three patterns are anchored `re.match` searches:
`^class\s+(\w+)`, `^(?:    )?def\s+(\w+)`,
`^(?:from\s+(\S+)\s+)?import\s+(\S+)`.  Each is re-implemented by
maximal-munch scanning, which coincides with the regex semantics here
because every greedy class is followed by a complementary requirement. -/

/-- Match `^class\s+(\w+)` and return the captured name. -/
def reMatchClass (line : String) : Option String :=
  match dropLit "class".data line.data with
  | none => none
  | some rest =>
    let sp := takeRun isSpaceCh rest
    if sp.1.isEmpty then none
    else
      let w := takeRun isWordCh sp.2
      if w.1.isEmpty then none else some (String.mk w.1)

/-- Match `^(?:    )?def\s+(\w+)` and return the captured name. -/
def reMatchFunc (line : String) : Option String :=
  let rest0 :=
    match dropLit "    ".data line.data with
    | some r => r
    | none => line.data
  match dropLit "def".data rest0 with
  | none => none
  | some rest =>
    let sp := takeRun isSpaceCh rest
    if sp.1.isEmpty then none
    else
      let w := takeRun isWordCh sp.2
      if w.1.isEmpty then none else some (String.mk w.1)

/-- Match `^(?:from\s+(\S+)\s+)?import\s+(\S+)` and return
`group(1) or group(2)` (the module). -/
def reMatchImport (line : String) : Option String :=
  let withFrom : Option String :=
    match dropLit "from".data line.data with
    | none => none
    | some r1 =>
      let sp1 := takeRun isSpaceCh r1
      if sp1.1.isEmpty then none
      else
        let m := takeRun (fun c => !isSpaceCh c) sp1.2
        if m.1.isEmpty then none
        else
          let sp2 := takeRun isSpaceCh m.2
          if sp2.1.isEmpty then none
          else
            match dropLit "import".data sp2.2 with
            | none => none
            | some r2 =>
              let sp3 := takeRun isSpaceCh r2
              if sp3.1.isEmpty then none
              else
                let t := takeRun (fun c => !isSpaceCh c) sp3.2
                if t.1.isEmpty then none else some (String.mk m.1)
  match withFrom with
  | some m => some m
  | none =>
    match dropLit "import".data line.data with
    | none => none
    | some r =>
      let sp := takeRun isSpaceCh r
      if sp.1.isEmpty then none
      else
        let t := takeRun (fun c => !isSpaceCh c) sp.2
        if t.1.isEmpty then none else some (String.mk t.1)

/-- The body of `_parse_with_regex`'s line loop; the accumulator carries
the builder and `current_class`. -/
def regexLine (rel : String) (acc : Builder × Option String)
    (iline : Nat × String) : Builder × Option String :=
  let b := acc.1
  let cc := acc.2
  let i := iline.1
  let line := iline.2
  let step1 : Builder × Option String :=
    match reMatchClass line with
    | some cname =>
      let info : SymbolInfo := ⟨rel, i + 1, none, line, "class"⟩
      ({ b with
          symbol_locations := dinsert b.symbol_locations cname info
          file_symbols := dmodify b.file_symbols rel (fun v => v ++ [cname])
          graph := addNode b.graph cname }, some cname)
    | none => (b, cc)
  let b1 := step1.1
  let cc1 := step1.2
  let step2 : Builder × Option String :=
    match reMatchFunc line with
    | some fname =>
      let fc : String × Option String :=
        if strLeads line "    " then
          match cc1 with
          | some c => (c ++ "." ++ fname, some c)
          | none => (fname, none)
        else (fname, none)
      let info : SymbolInfo :=
        ⟨rel, i + 1, none, line,
          if containsStr fc.1 "." then "method" else "function"⟩
      ({ b1 with
          symbol_locations := dinsert b1.symbol_locations fc.1 info
          file_symbols := dmodify b1.file_symbols rel (fun v => v ++ [fc.1])
          graph := addNode b1.graph fc.1 }, fc.2)
    | none => (b1, cc1)
  let b2 := step2.1
  let b3 :=
    match reMatchImport line with
    | some module =>
      { b2 with
        imports := dmodify b2.imports rel
          (fun v => sinsert v (replaceDots module ++ ".py")) }
    | none => b2
  (b3, step2.2)

/-- `_parse_with_regex code rel_path`. -/
def regexParse (b : Builder) (rel : String) (text : String) : Builder :=
  ((splitLines text).enum.foldl (regexLine rel) (b, none)).1

/-! ## Per-file parsing and the build pipeline -/

/-- What the external file system hands the parser for one path: the raw
text together with its (externally computed) tree-sitter parse. -/
structure RawFile where
  text : String
  tree : List PyTree

/-- One discovered `*.py` path; `content = none` models a file whose
`read_text()` raises. -/
structure PFile where
  relPath : String
  content : Option RawFile

/-- `_parse_file` with tree-sitter available: a failed read returns
before any state is touched; otherwise the file record and import set are
initialised and the file is parsed. -/
def parseFileTS (b : Builder) (f : PFile) : Builder :=
  match f.content with
  | none => b
  | some rf =>
    let rel := f.relPath
    let b : Builder :=
      { b with
        file_symbols := dinsert b.file_symbols rel []
        imports := dinsert b.imports rel [] }
    tsParse b rel rf.text rf.tree

/-- `_parse_file` without tree-sitter (regex fallback). -/
def parseFileRegex (b : Builder) (f : PFile) : Builder :=
  match f.content with
  | none => b
  | some rf =>
    let rel := f.relPath
    let b : Builder :=
      { b with
        file_symbols := dinsert b.file_symbols rel []
        imports := dinsert b.imports rel [] }
    regexParse b rel rf.text

/-! ## `_resolve_dependencies`

Four sub-passes over the completed builder state, in source order:
file-level imports with the symbol cross product, call resolution,
instantiation resolution, and the textual reference sweep.  Only the
graph is mutated, so each pass is a function on `Graph` taking the
(read-only) tables as parameters. -/

/-- Sub-pass 1: `imports`/`uses` edges. -/
def resolveImportsG (fileSymbols : List (String × List String))
    (importTable : List (String × List String)) (g : Graph) : Graph :=
  importTable.foldl
    (fun g fe =>
      fe.2.foldl
        (fun g impFile =>
          if strLeads impFile "import:" then g
          else if dcontains fileSymbols impFile then
            let g := addEdge g fe.1 impFile .imports
            (dlookupD fileSymbols fe.1 []).foldl
              (fun g src =>
                (dlookupD fileSymbols impFile []).foldl
                  (fun g dst =>
                    if hasEdge g src dst then g
                    else addEdge g src dst .uses)
                  g)
              g
          else g)
        g)
    g

/-- Call resolution for one callee text of one caller: exact match,
two-segment match, base-name fallback; all rules fire in order. -/
def callOne (symbolLocations : List (String × SymbolInfo)) (caller : String)
    (g : Graph) (call : String) : Graph :=
  let callParts := splitDot call
  let g :=
    if dcontains symbolLocations call then addEdge g caller call .calls
    else g
  let g :=
    if callParts.length = 2 then
      symbolLocations.foldl
        (fun g se =>
          if strEndsWith se.1 ("." ++ callParts.getLastD "")
              || se.1 = callParts.getLastD "" then
            if hasEdge g caller se.1 then g
            else addEdge g caller se.1 .calls
          else g)
        g
    else g
  symbolLocations.foldl
    (fun g se =>
      if lastSeg se.1 = callParts.getLastD "" ∧ se.1 ≠ caller then
        if hasEdge g caller se.1 then g
        else addEdge g caller se.1 .may_call
      else g)
    g

/-- Call resolution for one `symbol_calls` entry (one caller). -/
def callEntry (symbolLocations : List (String × SymbolInfo)) (g : Graph)
    (ce : String × List String) : Graph :=
  ce.2.foldl (callOne symbolLocations ce.1) g

/-- Sub-pass 2: call resolution over every caller. -/
def resolveCallsG (symbolLocations : List (String × SymbolInfo))
    (symbolCalls : List (String × List String)) (g : Graph) : Graph :=
  symbolCalls.foldl (callEntry symbolLocations) g

/-- The fixed list of conventionally named lifecycle methods linked on
instantiation. -/
def importantMethods (sym : String) : List String :=
  [sym ++ ".__init__", sym ++ ".__call__", sym ++ ".get_route_handler",
    sym ++ ".handle", sym ++ ".run", sym ++ ".execute", sym ++ ".process"]

/-- Linking one conventionally named lifecycle method on instantiation
(guarded by `has_edge`). -/
def instMethod (symbolLocations : List (String × SymbolInfo))
    (caller : String) (g : Graph) (m : String) : Graph :=
  if dcontains symbolLocations m then
    if hasEdge g caller m then g
    else addEdge g caller m .instantiates_uses
  else g

/-- Instantiation resolution against one symbol-table entry: when it is a
class whose base name matches, add the (guarded) `instantiates` edge and
link the lifecycle methods. -/
def instSym (symbolLocations : List (String × SymbolInfo))
    (caller className : String) (g : Graph) (se : String × SymbolInfo) :
    Graph :=
  if se.2.type = "class" then
    if (if containsStr se.1 "." then lastSeg se.1 else se.1) = className then
      (importantMethods se.1).foldl (instMethod symbolLocations caller)
        (if hasEdge g caller se.1 then g
          else addEdge g caller se.1 .instantiates)
    else g
  else g

/-- Instantiation resolution for one candidate callee text. -/
def instOne (symbolLocations : List (String × SymbolInfo)) (caller : String)
    (g : Graph) (classCall : String) : Graph :=
  symbolLocations.foldl (instSym symbolLocations caller (lastSeg classCall)) g

/-- Instantiation resolution for one `symbol_instantiates` entry. -/
def instEntry (symbolLocations : List (String × SymbolInfo)) (g : Graph)
    (ce : String × List String) : Graph :=
  ce.2.foldl (instOne symbolLocations ce.1) g

/-- Sub-pass 3: instantiation resolution (`instantiates` and
`instantiates_uses` edges; both additions are guarded by `has_edge`). -/
def resolveInstG (symbolLocations : List (String × SymbolInfo))
    (symbolInstantiates : List (String × List String)) (g : Graph) : Graph :=
  symbolInstantiates.foldl (instEntry symbolLocations) g

/-- Re-reading a file from disk by relative path (the sweep reads the
file system again; a failing read is swallowed). -/
def readDisk : List PFile → String → Option String
  | [], _ => none
  | f :: fs, p =>
    if f.relPath = p then f.content.map (fun rf => rf.text)
    else readDisk fs p

/-- Sub-pass 4: the textual reference sweep — for every symbol, every
other file whose raw text contains the symbol's base name contributes a
`references` edge from each of its symbols (added unconditionally). -/
def resolveRefsG (disk : List PFile)
    (fileSymbols : List (String × List String))
    (symbolLocations : List (String × SymbolInfo)) (g : Graph) : Graph :=
  symbolLocations.foldl
    (fun g se =>
      let symbolName := lastSeg se.1
      fileSymbols.foldl
        (fun g fe =>
          if fe.1 ≠ se.2.file then
            match readDisk disk fe.1 with
            | none => g
            | some text =>
              if containsStr text symbolName then
                fe.2.foldl
                  (fun g other =>
                    if other ≠ se.1 then addEdge g other se.1 .references
                    else g)
                  g
              else g
          else g)
        g)
    g

/-- `_resolve_dependencies`: the four sub-passes in order. -/
def resolveDependencies (disk : List PFile) (b : Builder) : Builder :=
  { b with
    graph :=
      resolveRefsG disk b.file_symbols b.symbol_locations
        (resolveInstG b.symbol_locations b.symbol_instantiates
          (resolveCallsG b.symbol_locations b.symbol_calls
            (resolveImportsG b.file_symbols b.imports b.graph))) }

/-- The parse phase of `build`: parse every discovered file, skipping
`__pycache__` paths. -/
def parseProject (files : List PFile) : Builder :=
  files.foldl
    (fun b f =>
      if containsStr f.relPath "__pycache__" then b else parseFileTS b f)
    initBuilder

/-- `build` with tree-sitter available: parse everything, then resolve. -/
def buildTS (files : List PFile) : Builder :=
  resolveDependencies files (parseProject files)

/-- The parse phase of `build` under the regex fallback parser. -/
def parseProjectRegex (files : List PFile) : Builder :=
  files.foldl
    (fun b f =>
      if containsStr f.relPath "__pycache__" then b else parseFileRegex b f)
    initBuilder

/-- `build` with the regex fallback parser. -/
def buildRegex (files : List PFile) : Builder :=
  resolveDependencies files (parseProjectRegex files)

/-! ## `query_blast_radius` -/

/-- The successful query payload. -/
structure BlastInfo where
  symbol : String
  dependents : List String
  dependencies : List String
  instantiated_methods : List String
  affected_files : List String
  blast_radius_size : Nat
deriving DecidableEq, Repr

/-- A query either fails with an error plus up to five suggestions, or
returns a `BlastInfo`. -/
inductive QueryResult where
  | notFound (error : String) (suggestions : List String)
  | found (info : BlastInfo)
deriving DecidableEq, Repr

def QueryResult.dependents : QueryResult → List String
  | .found i => i.dependents
  | .notFound _ _ => []

def QueryResult.dependencies : QueryResult → List String
  | .found i => i.dependencies
  | .notFound _ _ => []

def QueryResult.instantiated_methods : QueryResult → List String
  | .found i => i.instantiated_methods
  | .notFound _ _ => []

def QueryResult.blast_radius_size : QueryResult → Nat
  | .found i => i.blast_radius_size
  | .notFound _ _ => 0

/-- The body of `query_blast_radius` once the symbol has been resolved to
a graph node: two predecessor hops for dependents; one successor hop
classified by relation plus one relation-agnostic extra hop for
dependencies; `contains`-successors of `instantiates`-successors and
`instantiates_uses`-successors for instantiated methods. -/
def computeBlast (b : Builder) (symbol : String) : BlastInfo :=
  let g := b.graph
  let dependents :=
    (preds g symbol).foldl
      (fun d p => sunion (sinsert d p) (preds g p)) []
  let di :=
    (succs g symbol).foldl
      (fun (di : List String × List String) succ =>
        let rel := getRel g symbol succ
        let di2 :=
          if rel = some ERel.instantiates_uses then
            (di.1, sinsert di.2 succ)
          else if rel = some ERel.instantiates then
            ((sinsert di.1 succ),
              (succs g succ).foldl
                (fun im ms =>
                  if getRel g succ ms = some ERel.contains then sinsert im ms
                  else im)
                di.2)
          else (sinsert di.1 succ, di.2)
        (sunion di2.1 (succs g succ), di2.2))
      ([], [])
  let dependencies := di.1
  let instantiated := di.2
  let affected :=
    (dependents ++ dependencies ++ instantiated ++ [symbol]).foldl
      (fun fs s =>
        match dlookup b.symbol_locations s with
        | some info => sinsert fs info.file
        | none => fs)
      []
  { symbol := symbol
    dependents := dependents
    dependencies := dependencies
    instantiated_methods := instantiated
    affected_files := affected
    blast_radius_size :=
      dependents.length + dependencies.length + instantiated.length }

/-- `query_blast_radius`: exact node match, else first case-insensitive
substring match over the node list, else an error carrying the first
five node names as suggestions. -/
def queryBlastRadius (b : Builder) (symbol : String) : QueryResult :=
  if symbol ∈ b.graph.nodes then .found (computeBlast b symbol)
  else
    match b.graph.nodes.filter
        (fun s => containsStr (lowerStr s) (lowerStr symbol)) with
    | m :: _ => .found (computeBlast b m)
    | [] =>
      .notFound ("Symbol " ++ symbol ++ " not found") (b.graph.nodes.take 5)

/-! ## Basic lemmas: set lists, folds -/

theorem mem_sinsert {l : List String} {x y : String} :
    x ∈ sinsert l y ↔ x ∈ l ∨ x = y := by
  unfold sinsert
  split
  · constructor
    · exact fun h => Or.inl h
    · rintro (h | rfl)
      · exact h
      · assumption
  · simp

theorem mem_sunion {l ys : List String} {x : String} :
    x ∈ sunion l ys ↔ x ∈ l ∨ x ∈ ys := by
  unfold sunion
  induction ys generalizing l with
  | nil => simp
  | cons y ys ih =>
    simp only [List.foldl_cons, ih, mem_sinsert, List.mem_cons]
    tauto

theorem foldlPres {α β : Type _} {P : β → Prop} {f : β → α → β}
    (hf : ∀ b a, P b → P (f b a)) :
    ∀ (l : List α) {b : β}, P b → P (l.foldl f b) := by
  intro l
  induction l with
  | nil => intro b hb; exact hb
  | cons a l ih => intro b hb; exact ih (hf b a hb)

theorem foldlCongr {α β : Type _} {f f' : β → α → β}
    (h : ∀ b a, f b a = f' b a) :
    ∀ (l : List α) (b : β), l.foldl f b = l.foldl f' b := by
  intro l
  induction l with
  | nil => intro b; rfl
  | cons a l ih => intro b; rw [List.foldl_cons, List.foldl_cons, h, ih]

/-! ## Lemmas about the edge list primitives -/

theorem edgesRel_nil (u v : String) : edgesRel [] u v = none := rfl

theorem edgesRel_cons (e : GEdge) (rest : List GEdge) (u v : String) :
    edgesRel (e :: rest) u v =
      if e.1 = u ∧ e.2.1 = v then some e.2.2 else edgesRel rest u v := rfl

theorem setRel_nil (u v : String) (r : ERel) : setRel [] u v r = [] := rfl

theorem setRel_cons (e : GEdge) (rest : List GEdge) (u v : String) (r : ERel) :
    setRel (e :: rest) u v r =
      (if e.1 = u ∧ e.2.1 = v then (u, v, r) else e) :: setRel rest u v r := rfl

theorem edgesCount_nil (u v : String) : edgesCount [] u v = 0 := rfl

theorem edgesCount_cons (e : GEdge) (rest : List GEdge) (u v : String) :
    edgesCount (e :: rest) u v =
      (if e.1 = u ∧ e.2.1 = v then 1 else 0) + edgesCount rest u v := rfl

theorem predsE_nil (v : String) : predsE [] v = [] := rfl

theorem predsE_cons (e : GEdge) (rest : List GEdge) (v : String) :
    predsE (e :: rest) v =
      if e.2.1 = v then e.1 :: predsE rest v else predsE rest v := rfl

theorem succsE_nil (u : String) : succsE [] u = [] := rfl

theorem succsE_cons (e : GEdge) (rest : List GEdge) (u : String) :
    succsE (e :: rest) u =
      if e.1 = u then e.2.1 :: succsE rest u else succsE rest u := rfl

theorem edgesRel_append_keep {l l2 : List GEdge} {u v : String} {r : ERel}
    (h : edgesRel l u v = some r) : edgesRel (l ++ l2) u v = some r := by
  induction l with
  | nil => simp [edgesRel_nil] at h
  | cons e rest ih =>
    rw [edgesRel_cons] at h
    rw [List.cons_append, edgesRel_cons]
    split at h
    · rwa [if_pos (by assumption)]
    · rw [if_neg (by assumption)]
      exact ih h

theorem edgesRel_append_new {l : List GEdge} {u v : String} {r : ERel}
    (h : edgesRel l u v = none) :
    edgesRel (l ++ [(u, v, r)]) u v = some r := by
  induction l with
  | nil => simp [edgesRel_cons, edgesRel_nil]
  | cons e rest ih =>
    rw [edgesRel_cons] at h
    rw [List.cons_append, edgesRel_cons]
    split at h
    · contradiction
    · rw [if_neg (by assumption)]
      exact ih h

theorem edgesRel_append_other {l : List GEdge} {a b u v : String} {r : ERel}
    (h : ¬(a = u ∧ b = v)) :
    edgesRel (l ++ [(a, b, r)]) u v = edgesRel l u v := by
  induction l with
  | nil => simp [edgesRel_cons, edgesRel_nil, h]
  | cons e rest ih =>
    rw [List.cons_append, edgesRel_cons, edgesRel_cons]
    split
    · rfl
    · exact ih

theorem edgesRel_setRel_same {l : List GEdge} {u v : String} {r : ERel}
    (h : (edgesRel l u v).isSome = true) :
    edgesRel (setRel l u v r) u v = some r := by
  induction l with
  | nil => simp [edgesRel_nil] at h
  | cons e rest ih =>
    rw [edgesRel_cons] at h
    rw [setRel_cons]
    split at h
    · rw [if_pos (by assumption), edgesRel_cons]
      simp
    · rw [if_neg (by assumption), edgesRel_cons, if_neg (by assumption)]
      exact ih h

theorem edgesRel_setRel_other {l : List GEdge} {a b u v : String} {r : ERel}
    (h : ¬(a = u ∧ b = v)) :
    edgesRel (setRel l a b r) u v = edgesRel l u v := by
  induction l with
  | nil => rfl
  | cons e rest ih =>
    rw [setRel_cons, edgesRel_cons]
    rcases Decidable.em (e.1 = a ∧ e.2.1 = b) with hab | hab
    · rw [if_pos hab, edgesRel_cons]
      have h1 : ¬(a = u ∧ b = v) := h
      have h2 : ¬(e.1 = u ∧ e.2.1 = v) := by
        intro he
        exact h ⟨hab.1.symm.trans he.1, hab.2.symm.trans he.2⟩
      simp only [if_neg h1, if_neg h2]
      exact ih
    · rw [if_neg hab, edgesRel_cons]
      split
      · rfl
      · exact ih

/-! ## Lemmas about `addNode` / `addEdge` -/

theorem addNode_edges (g : Graph) (n : String) :
    (addNode g n).edges = g.edges := by
  unfold addNode
  split <;> rfl

theorem mem_addNode (g : Graph) (n m : String) (h : m ∈ g.nodes) :
    m ∈ (addNode g n).nodes := by
  unfold addNode
  split
  · exact h
  · exact List.mem_append_left _ h

theorem getRel_addEdge_same (g : Graph) (u v : String) (r : ERel) :
    getRel (addEdge g u v r) u v = some r := by
  unfold addEdge addEdgeAux getRel hasEdge
  rw [addNode_edges, addNode_edges]
  split
  · rename_i h
    exact edgesRel_setRel_same h
  · rename_i h
    rw [Option.not_isSome_iff_eq_none] at h
    exact edgesRel_append_new h

theorem getRel_addEdge_other (g : Graph) (a b u v : String) (r : ERel)
    (h : ¬(a = u ∧ b = v)) :
    getRel (addEdge g a b r) u v = getRel g u v := by
  unfold addEdge addEdgeAux getRel hasEdge
  rw [addNode_edges, addNode_edges]
  split
  · exact edgesRel_setRel_other h
  · exact edgesRel_append_other h

theorem hasEdge_addEdge (g : Graph) (a b u v : String) (r : ERel)
    (h : hasEdge g u v = true) : hasEdge (addEdge g a b r) u v = true := by
  unfold hasEdge at h ⊢
  rcases Decidable.em (a = u ∧ b = v) with hp | hp
  · rcases hp with ⟨rfl, rfl⟩
    rw [show edgesRel (addEdge g a b r).edges a b = getRel (addEdge g a b r) a b from rfl,
      getRel_addEdge_same]
    rfl
  · rw [show edgesRel (addEdge g a b r).edges u v = getRel (addEdge g a b r) u v from rfl,
      getRel_addEdge_other g a b u v r hp]
    exact h

theorem mem_addEdge (g : Graph) (a b n : String) (r : ERel)
    (h : n ∈ g.nodes) : n ∈ (addEdge g a b r).nodes := by
  unfold addEdge addEdgeAux
  split <;> exact mem_addNode _ _ _ (mem_addNode _ _ _ h)

/-- The invariant carried through every resolution step for a fixed
ordered pair: the edge exists and its tag is not `instantiates_uses`. -/
def EdgeInv (u v : String) (g : Graph) : Prop :=
  hasEdge g u v = true ∧ getRel g u v ≠ some ERel.instantiates_uses

/-- Every `add_edge` call in `_resolve_dependencies` either carries a tag
other than `instantiates_uses` or is guarded by `has_edge`; either way it
preserves `EdgeInv`. -/
theorem EdgeInv_addEdge {u v : String} {g : Graph} (a b : String) (r : ERel)
    (h : EdgeInv u v g)
    (hr : r ≠ ERel.instantiates_uses ∨ hasEdge g a b = false) :
    EdgeInv u v (addEdge g a b r) := by
  rcases h with ⟨he, hrel⟩
  refine ⟨hasEdge_addEdge g a b u v r he, ?_⟩
  rcases Decidable.em (a = u ∧ b = v) with hp | hp
  · rcases hp with ⟨rfl, rfl⟩
    rw [getRel_addEdge_same]
    rcases hr with hr | hr
    · simp [hr]
    · rw [he] at hr
      cases hr
  · rw [getRel_addEdge_other g a b u v r hp]
    exact hrel

/-! ## Preservation through the four resolution sub-passes

Each lemma is parametric in a graph property `P` and reports exactly what
its sub-pass's `add_edge` sites can do: the imports pass writes `imports`
unguarded and `uses` guarded; the call pass writes `calls` unguarded and
`calls`/`may_call` guarded; the instantiation pass writes only behind
`has_edge` guards; the reference sweep writes only `references`. -/

theorem resolveImportsG_pres (P : Graph → Prop)
    (hAdd : ∀ g a b r, P g →
      (r = ERel.imports ∨ hasEdge g a b = false) → P (addEdge g a b r))
    (fs it : List (String × List String)) (g : Graph) (hg : P g) :
    P (resolveImportsG fs it g) := by
  unfold resolveImportsG
  refine foldlPres ?_ it hg
  intro g fe hg
  refine foldlPres ?_ fe.2 hg
  intro g imp hg
  dsimp only
  split
  · exact hg
  · split
    · refine foldlPres ?_ _ (hAdd g fe.1 imp .imports hg (Or.inl rfl))
      intro g src hg
      refine foldlPres ?_ _ hg
      intro g dst hg
      dsimp only
      split
      · exact hg
      · rename_i hguard
        refine hAdd g src dst .uses hg (Or.inr ?_)
        simpa using hguard
    · exact hg

theorem callOne_pres (P : Graph → Prop)
    (hAdd : ∀ g a b r, P g →
      (r = ERel.calls ∨ hasEdge g a b = false) → P (addEdge g a b r))
    (sl : List (String × SymbolInfo)) (caller : String)
    (g : Graph) (call : String) (hg : P g) :
    P (callOne sl caller g call) := by
  unfold callOne
  dsimp only
  have h1 : P (if dcontains sl call = true then
      addEdge g caller call ERel.calls else g) := by
    split
    · exact hAdd g caller call .calls hg (Or.inl rfl)
    · exact hg
  have h2 :
      ∀ g0, P g0 →
        P (if (splitDot call).length = 2 then
            sl.foldl
              (fun g se =>
                if strEndsWith se.1 ("." ++ (splitDot call).getLastD "")
                    || se.1 = (splitDot call).getLastD "" then
                  if hasEdge g caller se.1 then g
                  else addEdge g caller se.1 ERel.calls
                else g)
              g0
          else g0) := by
    intro g0 hg0
    split
    · refine foldlPres ?_ sl hg0
      intro g se hg2
      dsimp only
      split
      · split
        · exact hg2
        · exact hAdd g caller se.1 .calls hg2 (Or.inl rfl)
      · exact hg2
    · exact hg0
  refine foldlPres ?_ sl (h2 _ h1)
  intro g se hg3
  dsimp only
  split
  · split
    · exact hg3
    · rename_i hguard
      refine hAdd g caller se.1 .may_call hg3 (Or.inr ?_)
      simpa using hguard
  · exact hg3

theorem callEntry_pres (P : Graph → Prop)
    (hAdd : ∀ g a b r, P g →
      (r = ERel.calls ∨ hasEdge g a b = false) → P (addEdge g a b r))
    (sl : List (String × SymbolInfo)) (g : Graph)
    (ce : String × List String) (hg : P g) :
    P (callEntry sl g ce) := by
  unfold callEntry
  refine foldlPres ?_ ce.2 hg
  intro g call hg
  exact callOne_pres P hAdd sl ce.1 g call hg

theorem resolveCallsG_pres (P : Graph → Prop)
    (hAdd : ∀ g a b r, P g →
      (r = ERel.calls ∨ hasEdge g a b = false) → P (addEdge g a b r))
    (sl : List (String × SymbolInfo)) (sc : List (String × List String))
    (g : Graph) (hg : P g) : P (resolveCallsG sl sc g) := by
  unfold resolveCallsG
  refine foldlPres ?_ sc hg
  intro g ce hg
  exact callEntry_pres P hAdd sl g ce hg

theorem instMethod_pres (P : Graph → Prop)
    (hAdd : ∀ g a b r, P g → hasEdge g a b = false → P (addEdge g a b r))
    (sl : List (String × SymbolInfo)) (caller : String)
    (g : Graph) (m : String) (hg : P g) :
    P (instMethod sl caller g m) := by
  unfold instMethod
  split
  · split
    · exact hg
    · rename_i hguard
      refine hAdd g caller m .instantiates_uses hg ?_
      simpa using hguard
  · exact hg

theorem instSym_pres (P : Graph → Prop)
    (hAdd : ∀ g a b r, P g → hasEdge g a b = false → P (addEdge g a b r))
    (sl : List (String × SymbolInfo)) (caller className : String)
    (g : Graph) (se : String × SymbolInfo) (hg : P g) :
    P (instSym sl caller className g se) := by
  unfold instSym
  have hbase : P (if hasEdge g caller se.1 = true then g
      else addEdge g caller se.1 ERel.instantiates) := by
    split
    · exact hg
    · rename_i hguard
      refine hAdd g caller se.1 .instantiates hg ?_
      simpa using hguard
  have hfold :
      P ((importantMethods se.1).foldl (instMethod sl caller)
        (if hasEdge g caller se.1 = true then g
          else addEdge g caller se.1 ERel.instantiates)) := by
    refine foldlPres ?_ _ hbase
    intro g m hg2
    exact instMethod_pres P hAdd sl caller g m hg2
  split
  · split
    · split
      · exact hfold
      · exact hg
    · split
      · exact hfold
      · exact hg
  · exact hg

theorem instOne_pres (P : Graph → Prop)
    (hAdd : ∀ g a b r, P g → hasEdge g a b = false → P (addEdge g a b r))
    (sl : List (String × SymbolInfo)) (caller : String)
    (g : Graph) (classCall : String) (hg : P g) :
    P (instOne sl caller g classCall) := by
  unfold instOne
  refine foldlPres ?_ sl hg
  intro g se hg
  exact instSym_pres P hAdd sl caller (lastSeg classCall) g se hg

theorem instEntry_pres (P : Graph → Prop)
    (hAdd : ∀ g a b r, P g → hasEdge g a b = false → P (addEdge g a b r))
    (sl : List (String × SymbolInfo)) (g : Graph)
    (ce : String × List String) (hg : P g) :
    P (instEntry sl g ce) := by
  unfold instEntry
  refine foldlPres ?_ ce.2 hg
  intro g classCall hg
  exact instOne_pres P hAdd sl ce.1 g classCall hg

theorem resolveInstG_pres (P : Graph → Prop)
    (hAdd : ∀ g a b r, P g → hasEdge g a b = false → P (addEdge g a b r))
    (sl : List (String × SymbolInfo)) (si : List (String × List String))
    (g : Graph) (hg : P g) : P (resolveInstG sl si g) := by
  unfold resolveInstG
  refine foldlPres ?_ si hg
  intro g ce hg
  exact instEntry_pres P hAdd sl g ce hg

theorem resolveRefsG_pres (P : Graph → Prop)
    (hAdd : ∀ g a b r, P g → r = ERel.references → P (addEdge g a b r))
    (disk : List PFile) (fs : List (String × List String))
    (sl : List (String × SymbolInfo)) (g : Graph) (hg : P g) :
    P (resolveRefsG disk fs sl g) := by
  unfold resolveRefsG
  refine foldlPres ?_ sl hg
  intro g se hg
  refine foldlPres ?_ fs hg
  intro g fe hg
  dsimp only
  split
  · split
    · exact hg
    · split
      · refine foldlPres ?_ _ hg
        intro g other hg2
        dsimp only
        split
        · exact hAdd g other se.1 .references hg2 rfl
        · exact hg2
      · exact hg
  · exact hg

/-- Preservation through the whole of `_resolve_dependencies`, for a
property preserved by every `add_edge` that either carries a tag other
than `instantiates_uses`/`instantiates` or is guarded by `has_edge`. -/
theorem resolveDependencies_pres (P : Graph → Prop)
    (hAdd : ∀ g a b r, P g →
      ((r ≠ ERel.instantiates_uses ∧ r ≠ ERel.instantiates)
          ∨ hasEdge g a b = false) →
      P (addEdge g a b r))
    (disk : List PFile) (b : Builder) (hg : P b.graph) :
    P (resolveDependencies disk b).graph := by
  unfold resolveDependencies
  refine resolveRefsG_pres P
    (fun g a b2 r hg2 hc => hAdd g a b2 r hg2
      (Or.inl (by subst hc; exact ⟨by decide, by decide⟩))) _ _ _ _ ?_
  refine resolveInstG_pres P
    (fun g a b2 r hg2 hc => hAdd g a b2 r hg2 (Or.inr hc)) _ _ _ ?_
  refine resolveCallsG_pres P
    (fun g a b2 r hg2 hc => hAdd g a b2 r hg2
      (hc.imp (fun h => by subst h; exact ⟨by decide, by decide⟩) id)) _ _ _ ?_
  exact resolveImportsG_pres P
    (fun g a b2 r hg2 hc => hAdd g a b2 r hg2
      (hc.imp (fun h => by subst h; exact ⟨by decide, by decide⟩) id)) _ _ _ hg

/-! ## Lemmas about the query computation -/

theorem mem_predsE {l : List GEdge} {p v : String} :
    p ∈ predsE l v ↔ ∃ r, (p, v, r) ∈ l := by
  induction l with
  | nil => simp [predsE_nil]
  | cons e rest ih =>
    rw [predsE_cons]
    split
    · rename_i h2
      simp only [List.mem_cons, ih]
      constructor
      · rintro (rfl | ⟨r, hr⟩)
        · refine ⟨e.2.2, Or.inl ?_⟩
          rw [← h2]
        · exact ⟨r, Or.inr hr⟩
      · rintro ⟨r, he | hr⟩
        · left
          exact congrArg Prod.fst he
        · exact Or.inr ⟨r, hr⟩
    · rename_i h2
      simp only [ih, List.mem_cons]
      constructor
      · rintro ⟨r, hr⟩
        exact ⟨r, Or.inr hr⟩
      · rintro ⟨r, he | hr⟩
        · exact absurd (congrArg (fun e : GEdge => e.2.1) he.symm) h2
        · exact ⟨r, hr⟩

theorem edgesRel_isSome_iff {l : List GEdge} {u v : String} :
    (edgesRel l u v).isSome = true ↔ ∃ r, (u, v, r) ∈ l := by
  induction l with
  | nil => simp [edgesRel_nil]
  | cons e rest ih =>
    rw [edgesRel_cons]
    split
    · rename_i h2
      simp only [Option.isSome_some, true_iff]
      refine ⟨e.2.2, List.mem_cons.mpr (Or.inl ?_)⟩
      rw [← h2.1, ← h2.2]
    · rename_i h2
      simp only [ih, List.mem_cons]
      constructor
      · rintro ⟨r, hr⟩
        exact ⟨r, Or.inr hr⟩
      · rintro ⟨r, he | hr⟩
        · refine absurd ?_ h2
          rw [← he]
          exact ⟨rfl, rfl⟩
        · exact ⟨r, hr⟩

/-- `has_edge` is exactly membership among the predecessors of the
target. -/
theorem hasEdge_iff_mem_preds {g : Graph} {p v : String} :
    hasEdge g p v = true ↔ p ∈ preds g v := by
  unfold hasEdge preds
  rw [edgesRel_isSome_iff, mem_predsE]

/-- The two-hop dependents fold, characterised. -/
theorem mem_dependents_fold {g : Graph} {x : String} :
    ∀ (ps d : List String),
      x ∈ ps.foldl (fun d p => sunion (sinsert d p) (preds g p)) d ↔
        x ∈ d ∨ ∃ p ∈ ps, (x = p ∨ x ∈ preds g p) := by
  intro ps
  induction ps with
  | nil => simp
  | cons p ps ih =>
    intro d
    rw [List.foldl_cons, ih]
    simp only [mem_sunion, mem_sinsert, List.mem_cons]
    constructor
    · rintro ((((hd | rfl) | hp) | ⟨q, hq, hx⟩))
      · exact Or.inl hd
      · exact Or.inr ⟨x, Or.inl rfl, Or.inl rfl⟩
      · exact Or.inr ⟨p, Or.inl rfl, Or.inr hp⟩
      · exact Or.inr ⟨q, Or.inr hq, hx⟩
    · rintro (hd | ⟨q, rfl | hq, hx⟩)
      · exact Or.inl (Or.inl (Or.inl hd))
      · rcases hx with rfl | hx
        · exact Or.inl (Or.inl (Or.inr rfl))
        · exact Or.inl (Or.inr hx)
      · exact Or.inr ⟨q, hq, hx⟩

/-- `query_blast_radius` dependents = direct predecessors union the
predecessors of those predecessors, nothing else. -/
theorem mem_dependents_iff {b : Builder} {s x : String} :
    x ∈ (computeBlast b s).dependents ↔
      x ∈ preds b.graph s ∨ ∃ p ∈ preds b.graph s, x ∈ preds b.graph p := by
  show x ∈ (preds b.graph s).foldl
      (fun d p => sunion (sinsert d p) (preds b.graph p)) [] ↔ _
  rw [mem_dependents_fold]
  simp only [List.not_mem_nil, false_or]
  constructor
  · rintro ⟨p, hp, rfl | hx⟩
    · exact Or.inl hp
    · exact Or.inr ⟨p, hp, hx⟩
  · rintro (hp | ⟨p, hp, hx⟩)
    · exact ⟨x, hp, Or.inl rfl⟩
    · exact ⟨p, hp, Or.inr hx⟩

/-- The successor-classification step of `query_blast_radius`, named for
reasoning (definitionally the step used in `computeBlast`). -/
def blastStep (g : Graph) (symbol : String)
    (di : List String × List String) (succ : String) :
    List String × List String :=
  let rel := getRel g symbol succ
  let di2 :=
    if rel = some ERel.instantiates_uses then
      (di.1, sinsert di.2 succ)
    else if rel = some ERel.instantiates then
      ((sinsert di.1 succ),
        (succs g succ).foldl
          (fun im ms =>
            if getRel g succ ms = some ERel.contains then sinsert im ms
            else im)
          di.2)
    else (sinsert di.1 succ, di.2)
  (sunion di2.1 (succs g succ), di2.2)

theorem blastStep_deps_iu {g : Graph} {s a : String}
    {di : List String × List String}
    (h : getRel g s a = some ERel.instantiates_uses) :
    (blastStep g s di a).1 = sunion di.1 (succs g a) := by
  simp [blastStep, h]

theorem blastStep_deps_other {g : Graph} {s a : String}
    {di : List String × List String}
    (h : getRel g s a ≠ some ERel.instantiates_uses) :
    (blastStep g s di a).1 = sunion (sinsert di.1 a) (succs g a) := by
  rcases Decidable.em (getRel g s a = some ERel.instantiates) with hi | hi
  · simp [blastStep, h, hi]
  · simp [blastStep, h, hi]

theorem blastStep_deps_mono {g : Graph} {s a x : String}
    {di : List String × List String} (h : x ∈ di.1) :
    x ∈ (blastStep g s di a).1 := by
  rcases Decidable.em (getRel g s a = some ERel.instantiates_uses) with hu | hu
  · rw [blastStep_deps_iu hu]
    exact mem_sunion.mpr (Or.inl h)
  · rw [blastStep_deps_other hu]
    exact mem_sunion.mpr (Or.inl (mem_sinsert.mpr (Or.inl h)))

theorem blastStep_fold_mono {g : Graph} {s x : String} :
    ∀ (l : List String) (di : List String × List String), x ∈ di.1 →
      x ∈ (l.foldl (blastStep g s) di).1 := by
  intro l di h
  exact foldlPres (P := fun di : List String × List String => x ∈ di.1)
    (fun di a hd => blastStep_deps_mono hd) l h

theorem mem_blast_deps_of_succ {g : Graph} {s x : String}
    (hrel : getRel g s x ≠ some ERel.instantiates_uses) :
    ∀ (l : List String) (di : List String × List String), x ∈ l →
      x ∈ (l.foldl (blastStep g s) di).1 := by
  intro l
  induction l with
  | nil => intro di h; cases h
  | cons a l ih =>
    intro di h
    rcases List.mem_cons.mp h with rfl | h
    · rw [List.foldl_cons]
      refine blastStep_fold_mono l _ ?_
      rw [blastStep_deps_other hrel]
      exact mem_sunion.mpr (Or.inl (mem_sinsert.mpr (Or.inr rfl)))
    · rw [List.foldl_cons]
      exact ih _ h

/-- Every direct successor reached by an edge not tagged
`instantiates_uses` lands in the `dependencies` set. -/
theorem mem_dependencies_of_succ {b : Builder} {s x : String}
    (hs : x ∈ succs b.graph s)
    (hrel : getRel b.graph s x ≠ some ERel.instantiates_uses) :
    x ∈ (computeBlast b s).dependencies := by
  show x ∈ ((succs b.graph s).foldl (blastStep b.graph s) ([], [])).1
  exact mem_blast_deps_of_succ hrel _ _ hs

/-- Resolution of the query name by exact node membership. -/
theorem queryBlastRadius_pos {b : Builder} {s : String}
    (hs : s ∈ b.graph.nodes) :
    queryBlastRadius b s = .found (computeBlast b s) := by
  unfold queryBlastRadius
  rw [if_pos hs]

/-- The three result components of `computeBlast`, by definition. -/
theorem computeBlast_size (b : Builder) (s : String) :
    (computeBlast b s).blast_radius_size =
      (computeBlast b s).dependents.length +
        (computeBlast b s).dependencies.length +
        (computeBlast b s).instantiated_methods.length := rfl

theorem computeBlast_isolated (b : Builder) (s : String)
    (hp : preds b.graph s = []) (hsuc : succs b.graph s = []) :
    (computeBlast b s).blast_radius_size = 0 := by
  have h1 : (computeBlast b s).dependents = [] := by
    show List.foldl (fun d p => sunion (sinsert d p) (preds b.graph p)) []
      (preds b.graph s) = []
    rw [hp]
    rfl
  have h2 : (computeBlast b s).dependencies = [] := by
    show (List.foldl (blastStep b.graph s) ([], []) (succs b.graph s)).1 = []
    rw [hsuc]
    rfl
  have h3 : (computeBlast b s).instantiated_methods = [] := by
    show (List.foldl (blastStep b.graph s) ([], []) (succs b.graph s)).2 = []
    rw [hsuc]
    rfl
  rw [computeBlast_size, h1, h2, h3]
  rfl

/-! ## Lemmas for the unreadable-file and edge-collapse claims -/

theorem readDisk_nil (p : String) : readDisk [] p = none := rfl

theorem readDisk_cons (f : PFile) (fs : List PFile) (p : String) :
    readDisk (f :: fs) p =
      if f.relPath = p then f.content.map (fun rf => rf.text)
      else readDisk fs p := rfl

theorem readDisk_none_of_fresh {l : List PFile} {p : String}
    (h : ∀ f ∈ l, f.relPath ≠ p) : readDisk l p = none := by
  induction l with
  | nil => rfl
  | cons f fs ih =>
    rw [readDisk_cons, if_neg (h f (List.mem_cons_self f fs))]
    exact ih fun f2 h2 => h f2 (List.mem_cons_of_mem f h2)

theorem readDisk_skip {l1 l2 : List PFile} {bad : PFile}
    (hb : bad.content = none)
    (hfresh : ∀ f ∈ l1 ++ l2, f.relPath ≠ bad.relPath) :
    ∀ p, readDisk (l1 ++ bad :: l2) p = readDisk (l1 ++ l2) p := by
  induction l1 with
  | nil =>
    intro p
    simp only [List.nil_append]
    rw [readDisk_cons]
    split
    · rename_i hp
      rw [hb]
      rw [readDisk_none_of_fresh (p := p)]
      · rfl
      · intro f hf
        rw [← hp]
        exact hfresh f (by simpa using hf)
    · rfl
  | cons a l1 ih =>
    intro p
    simp only [List.cons_append]
    rw [readDisk_cons, readDisk_cons]
    split
    · rfl
    · exact ih (fun f hf => hfresh f (by simp at hf ⊢; tauto)) p

theorem resolveRefsG_congr {d1 d2 : List PFile}
    (h : ∀ p, readDisk d1 p = readDisk d2 p)
    (fs : List (String × List String)) (sl : List (String × SymbolInfo))
    (g : Graph) : resolveRefsG d1 fs sl g = resolveRefsG d2 fs sl g := by
  unfold resolveRefsG
  refine foldlCongr ?_ sl g
  intro g se
  refine foldlCongr ?_ fs g
  intro g fe
  dsimp only
  rw [h fe.1]

theorem parseFileTS_none {b : Builder} {bad : PFile}
    (h : bad.content = none) : parseFileTS b bad = b := by
  unfold parseFileTS
  rw [h]

theorem buildStep_none {b : Builder} {bad : PFile} (h : bad.content = none) :
    (if containsStr bad.relPath "__pycache__" then b else parseFileTS b bad)
      = b := by
  split
  · rfl
  · exact parseFileTS_none h

theorem edgesCount_setRel (l : List GEdge) (u v : String) (r : ERel) :
    edgesCount (setRel l u v r) u v = edgesCount l u v := by
  induction l with
  | nil => rfl
  | cons e rest ih =>
    rw [setRel_cons, edgesCount_cons, edgesCount_cons]
    split
    · rename_i hm
      rw [if_pos ⟨rfl, rfl⟩, ih]
    · rename_i hm
      rw [ih]

theorem edgesCount_append_pair (l : List GEdge) (u v : String) (r : ERel) :
    edgesCount (l ++ [(u, v, r)]) u v = edgesCount l u v + 1 := by
  induction l with
  | nil => simp [edgesCount_cons, edgesCount_nil]
  | cons e rest ih =>
    rw [List.cons_append, edgesCount_cons, edgesCount_cons, ih]
    omega

theorem edgesCount_zero_of_none {l : List GEdge} {u v : String}
    (h : edgesRel l u v = none) : edgesCount l u v = 0 := by
  induction l with
  | nil => rfl
  | cons e rest ih =>
    rw [edgesRel_cons] at h
    rw [edgesCount_cons]
    split at h
    · contradiction
    · rw [if_neg (by assumption), ih h]

theorem edgesCount_pos_of_isSome {l : List GEdge} {u v : String}
    (h : (edgesRel l u v).isSome = true) : 0 < edgesCount l u v := by
  induction l with
  | nil => simp [edgesRel_nil] at h
  | cons e rest ih =>
    rw [edgesRel_cons] at h
    rw [edgesCount_cons]
    split at h
    · rw [if_pos (by assumption)]
      omega
    · rw [if_neg (by assumption)]
      have := ih h
      omega

theorem setRel_id_of_count_zero {l : List GEdge} {u v : String} (r : ERel)
    (h : edgesCount l u v = 0) : setRel l u v r = l := by
  induction l with
  | nil => rfl
  | cons e rest ih =>
    rw [edgesCount_cons] at h
    rw [setRel_cons]
    split at h <;> rename_i hm
    · omega
    · rw [if_neg hm, ih (by omega)]

theorem setRel_eq_self {l : List GEdge} {u v : String} {r : ERel}
    (hrel : edgesRel l u v = some r) (hcount : edgesCount l u v ≤ 1) :
    setRel l u v r = l := by
  induction l with
  | nil => rfl
  | cons e rest ih =>
    rw [edgesRel_cons] at hrel
    rw [edgesCount_cons] at hcount
    rw [setRel_cons]
    split at hrel <;> rename_i hm
    · rw [if_pos hm]
      rw [if_pos hm] at hcount
      have h0 : edgesCount rest u v = 0 := by omega
      rw [setRel_id_of_count_zero r h0]
      have he : some e.2.2 = some r := hrel
      have : e.2.2 = r := Option.some.inj he
      rw [← hm.1, ← hm.2, ← this]
    · rw [if_neg hm]
      rw [if_neg hm] at hcount
      rw [ih hrel (by omega)]

theorem addNode_id {g : Graph} {n : String} (h : n ∈ g.nodes) :
    addNode g n = g := by
  unfold addNode
  rw [if_pos h]

/-- Re-adding an edge whose relation is already present leaves the whole
graph unchanged (for a graph storing at most one edge on the pair, as all
graphs built by `add_edge` do). -/
theorem addEdge_id {g : Graph} {u v : String} {r : ERel}
    (hrel : getRel g u v = some r) (hcount : pairCount g u v ≤ 1)
    (hu : u ∈ g.nodes) (hv : v ∈ g.nodes) : addEdge g u v r = g := by
  unfold addEdge
  rw [addNode_id hu, addNode_id hv]
  unfold addEdgeAux
  rw [if_pos ?pos]
  case pos =>
    unfold hasEdge
    rw [show edgesRel g.edges u v = getRel g u v from rfl, hrel]
    rfl
  rw [setRel_eq_self hrel hcount]

theorem pairCount_addEdge (g : Graph) (u v : String) (r : ERel)
    (h : pairCount g u v ≤ 1) : pairCount (addEdge g u v r) u v = 1 := by
  unfold addEdge addEdgeAux pairCount hasEdge
  rw [addNode_edges, addNode_edges]
  split
  · rename_i hs
    rw [edgesCount_setRel]
    have := edgesCount_pos_of_isSome hs
    unfold pairCount at h
    omega
  · rename_i hs
    rw [Option.not_isSome_iff_eq_none] at hs
    rw [edgesCount_append_pair, edgesCount_zero_of_none hs]

theorem mem_succsE {l : List GEdge} {u t : String} :
    t ∈ succsE l u ↔ ∃ r, (u, t, r) ∈ l := by
  induction l with
  | nil => simp [succsE_nil]
  | cons e rest ih =>
    rw [succsE_cons]
    split
    · rename_i h2
      simp only [List.mem_cons, ih]
      constructor
      · rintro (rfl | ⟨r, hr⟩)
        · refine ⟨e.2.2, Or.inl ?_⟩
          rw [← h2]
        · exact ⟨r, Or.inr hr⟩
      · rintro ⟨r, he | hr⟩
        · left
          exact congrArg (fun e : GEdge => e.2.1) he
        · exact Or.inr ⟨r, hr⟩
    · rename_i h2
      simp only [ih, List.mem_cons]
      constructor
      · rintro ⟨r, hr⟩
        exact ⟨r, Or.inr hr⟩
      · rintro ⟨r, he | hr⟩
        · exact absurd (congrArg Prod.fst he.symm) h2
        · exact ⟨r, hr⟩

/-- `has_edge` is exactly membership among the successors of the
source. -/
theorem hasEdge_iff_mem_succs {g : Graph} {u t : String} :
    hasEdge g u t = true ↔ t ∈ succs g u := by
  unfold hasEdge succs
  rw [edgesRel_isSome_iff, mem_succsE]

/-! ## Concrete projects used by the claim theorems

Each project is a list of `PFile`s: the relative path, the raw text, and
the tree-sitter parse of that text (hand-translated, since tree-sitter is
external). -/

/-- The spec's own scenario: `route = APIRoute(...)` inside `f`, with
`class APIRoute` defining `handle`, all in one file. -/
def apiFile : PFile :=
  ⟨"api.py",
    some
      ⟨"class APIRoute:\n    def handle(self):\n        pass\ndef f():\n    route = APIRoute()",
        [.classDef "APIRoute" 0 2 [.funcDef "handle" 1 2 []],
          .funcDef "f" 3 4 ["APIRoute"]]⟩⟩

/-- `a.py`: imports `helper` from `b` and calls it inside `f`. -/
def helperFileA : PFile :=
  ⟨"a.py",
    some
      ⟨"from b import helper\ndef f():\n    helper()",
        [.importFromStmt "b" ["helper"], .funcDef "f" 1 2 ["helper"]]⟩⟩

/-- `b.py`: defines `helper`. -/
def helperFileB : PFile :=
  ⟨"b.py", some ⟨"def helper():\n    pass", [.funcDef "helper" 0 1 []]⟩⟩

/-- `a.py`: `class C` with method `m`. -/
def klassFileA : PFile :=
  ⟨"a.py",
    some
      ⟨"class C:\n    def m(self):\n        pass",
        [.classDef "C" 0 2 [.funcDef "m" 1 2 []]]⟩⟩

/-- `b.py`: a colliding `class C` whose text mentions `m`. -/
def klassFileB : PFile :=
  ⟨"b.py", some ⟨"class C:\n    m = 1", [.classDef "C" 0 1 []]⟩⟩

/-- A lone function file, used to compare the two parsers' records. -/
def plainFile : PFile :=
  ⟨"m.py", some ⟨"def f():\n    pass", [.funcDef "f" 0 1 []]⟩⟩

/-- A path whose `read_text()` raises. -/
def badFile : PFile := ⟨"broken.py", none⟩

/-- A plain three-edge chain `x3 → x2 → x1 → s`, fed directly to the
query engine. -/
def chainBuilder : Builder :=
  { initBuilder with
    graph :=
      addEdge (addEdge (addEdge gEmpty "x3" "x2" .calls) "x2" "x1" .calls)
        "x1" "s" .calls }

/-- A single isolated node. -/
def isoBuilder : Builder :=
  { initBuilder with graph := addNode gEmpty "lonely" }

/-- The record the tree-sitter parser stores for `class APIRoute` in
`apiFile`. -/
def apiRouteInfo : SymbolInfo :=
  ⟨"api.py", 1, some 3,
    "class APIRoute:\n    def handle(self):\n        pass", "class"⟩

/-- Two nodes with mutual `references` edges, as the cross-file reference
sweep produces for symbols mentioning each other. -/
def mutualBuilder : Builder :=
  { initBuilder with
    graph :=
      addEdge (addEdge gEmpty "a" "s" .references) "s" "a" .references }

/-! ## Establishment lemmas

`foldl_estab`: a fold establishes `P` as soon as it processes an element
whose step establishes `P` from any state, provided every step preserves
`P`.  Used to show what the call- and instantiation-resolution passes
unconditionally write for a caller present in their tables. -/

theorem foldl_estab {α β : Type _} {P : β → Prop} {f : β → α → β} {x : α}
    (hx : ∀ b, P (f b x)) (hpres : ∀ b a, P b → P (f b a)) :
    ∀ (l : List α) (b : β), x ∈ l → P (l.foldl f b) := by
  intro l
  induction l with
  | nil => intro b h; exact absurd h (List.not_mem_nil x)
  | cons a l ih =>
    intro b h
    rw [List.foldl_cons]
    rcases List.mem_cons.mp h with rfl | h
    · exact foldlPres hpres l (hx b)
    · exact ih (f b a) h

theorem dlookup_mem {γ : Type} {l : List (String × γ)} {k : String} {v : γ}
    (h : dlookup l k = some v) : (k, v) ∈ l := by
  induction l with
  | nil => simp [dlookup] at h
  | cons e rest ih =>
    obtain ⟨k0, v0⟩ := e
    rw [show dlookup ((k0, v0) :: rest) k
        = if k0 = k then some v0 else dlookup rest k from rfl] at h
    split at h
    · rename_i hk
      subst hk
      rw [Option.some.injEq] at h
      subst h
      exact List.mem_cons_self _ _
    · exact List.mem_cons_of_mem _ (ih h)

theorem hasEdge_addEdge_self (g : Graph) (u v : String) (r : ERel) :
    hasEdge (addEdge g u v r) u v = true := by
  unfold hasEdge
  rw [show edgesRel (addEdge g u v r).edges u v
      = getRel (addEdge g u v r) u v from rfl, getRel_addEdge_same]
  rfl

/-- A guarded `add_edge` cannot touch a pair that already has an edge. -/
theorem getRel_addEdge_guarded {g : Graph} {a b u v : String} {r r0 : ERel}
    (h0 : getRel g u v = some r0) (hg : hasEdge g a b = false) :
    getRel (addEdge g a b r) u v = some r0 := by
  have hne : ¬(a = u ∧ b = v) := by
    rintro ⟨rfl, rfl⟩
    unfold hasEdge at hg
    rw [show edgesRel g.edges a b = getRel g a b from rfl, h0] at hg
    simp at hg
  rw [getRel_addEdge_other g a b u v r hne]
  exact h0

/-- An `add_edge` that writes the tag a pair already carries, or is
guarded, leaves that pair's tag unchanged. -/
theorem getRel_fixed_addEdge {g : Graph} {a b u v : String} {r r0 : ERel}
    (h0 : getRel g u v = some r0) (hc : r = r0 ∨ hasEdge g a b = false) :
    getRel (addEdge g a b r) u v = some r0 := by
  rcases hc with rfl | hguard
  · rcases Decidable.em (a = u ∧ b = v) with hp | hp
    · obtain ⟨rfl, rfl⟩ := hp
      exact getRel_addEdge_same g a b r
    · rw [getRel_addEdge_other g a b u v r hp]
      exact h0
  · exact getRel_addEdge_guarded h0 hguard

theorem blastStep_inst_iu {g : Graph} {s a : String}
    {di : List String × List String}
    (h : getRel g s a = some ERel.instantiates_uses) :
    (blastStep g s di a).2 = sinsert di.2 a := by
  simp [blastStep, h]

theorem blastStep_inst_mono {g : Graph} {s a x : String}
    {di : List String × List String} (h : x ∈ di.2) :
    x ∈ (blastStep g s di a).2 := by
  rcases Decidable.em (getRel g s a = some ERel.instantiates_uses) with hu | hu
  · rw [blastStep_inst_iu hu]
    exact mem_sinsert.mpr (Or.inl h)
  · rcases Decidable.em (getRel g s a = some ERel.instantiates) with hi | hi
    · have hstep : (blastStep g s di a).2
          = (succs g a).foldl
              (fun im ms =>
                if getRel g a ms = some ERel.contains then sinsert im ms
                else im)
              di.2 := by
        simp [blastStep, hu, hi]
      rw [hstep]
      refine foldlPres (P := fun im : List String => x ∈ im) ?_ _ h
      intro im ms him
      dsimp only
      split
      · exact mem_sinsert.mpr (Or.inl him)
      · exact him
    · have hstep : (blastStep g s di a).2 = di.2 := by
        simp [blastStep, hu, hi]
      rw [hstep]
      exact h

/-- Every direct successor reached by an `instantiates_uses` edge lands
in the `instantiated_methods` set. -/
theorem mem_blast_inst_of_succ {b : Builder} {s x : String}
    (hs : x ∈ succs b.graph s)
    (hrel : getRel b.graph s x = some ERel.instantiates_uses) :
    x ∈ (computeBlast b s).instantiated_methods := by
  show x ∈ ((succs b.graph s).foldl (blastStep b.graph s) ([], [])).2
  refine foldl_estab (P := fun di : List String × List String => x ∈ di.2)
    (x := x) ?_ ?_ _ _ hs
  · intro di
    rw [blastStep_inst_iu hrel]
    exact mem_sinsert.mpr (Or.inr rfl)
  · intro di a hd
    exact blastStep_inst_mono hd

/-! ## What resolution unconditionally does for a caller of `APIRoute`

For a caller `f` whose call set contains the literal callee text
`"APIRoute"`, with `"APIRoute"` present in the symbol table: rule 1 of
call resolution unconditionally writes `calls` on `(f, APIRoute)`, and
the rest of the call pass cannot change it.  For an instantiation
candidate `"APIRoute"` with the class and its `handle` method in the
table, the instantiation pass guarantees the pair
`(f, APIRoute.handle)` exists. -/

theorem apiCallOne_estab (sl : List (String × SymbolInfo)) (f : String)
    (hcls : dcontains sl "APIRoute" = true) (g : Graph) :
    getRel (callOne sl f g "APIRoute") f "APIRoute" = some ERel.calls := by
  unfold callOne
  dsimp only
  rw [if_pos hcls, if_neg (show ¬(splitDot "APIRoute").length = 2 by decide)]
  refine foldlPres (P := fun g => getRel g f "APIRoute" = some ERel.calls)
    ?_ sl (getRel_addEdge_same g f "APIRoute" .calls)
  intro g se hg
  dsimp only
  split
  · split
    · exact hg
    · rename_i hguard
      exact getRel_addEdge_guarded hg (by simpa using hguard)
  · exact hg

theorem apiCallEntry_estab (sl : List (String × SymbolInfo)) (f : String)
    (cf : List String) (hcls : dcontains sl "APIRoute" = true)
    (hmem : "APIRoute" ∈ cf) (g : Graph) :
    getRel (callEntry sl g (f, cf)) f "APIRoute" = some ERel.calls := by
  unfold callEntry
  dsimp only
  refine foldl_estab
    (P := fun g => getRel g f "APIRoute" = some ERel.calls) ?_ ?_ cf g hmem
  · intro g
    exact apiCallOne_estab sl f hcls g
  · intro g call hg
    exact callOne_pres (fun g => getRel g f "APIRoute" = some ERel.calls)
      (fun g a b r hg2 hc => getRel_fixed_addEdge hg2 hc) sl f g call hg

theorem apiResolveCalls_estab (sl : List (String × SymbolInfo))
    (sc : List (String × List String)) (f : String) (cf : List String)
    (hcls : dcontains sl "APIRoute" = true) (hentry : (f, cf) ∈ sc)
    (hmem : "APIRoute" ∈ cf) (g : Graph) :
    getRel (resolveCallsG sl sc g) f "APIRoute" = some ERel.calls := by
  unfold resolveCallsG
  refine foldl_estab
    (P := fun g => getRel g f "APIRoute" = some ERel.calls) ?_ ?_ sc g hentry
  · intro g
    exact apiCallEntry_estab sl f cf hcls hmem g
  · intro g ce hg
    exact callEntry_pres (fun g => getRel g f "APIRoute" = some ERel.calls)
      (fun g a b r hg2 hc => getRel_fixed_addEdge hg2 hc) sl g ce hg

theorem apiInstMethod_estab (sl : List (String × SymbolInfo)) (f : String)
    (hh : dcontains sl "APIRoute.handle" = true) (g : Graph) :
    hasEdge (instMethod sl f g "APIRoute.handle") f "APIRoute.handle"
      = true := by
  unfold instMethod
  rw [if_pos hh]
  split
  · assumption
  · exact hasEdge_addEdge_self g f "APIRoute.handle" .instantiates_uses

theorem apiInstSym_estab (sl : List (String × SymbolInfo)) (f : String)
    (info : SymbolInfo) (htype : info.type = "class")
    (hh : dcontains sl "APIRoute.handle" = true) (g : Graph) :
    hasEdge (instSym sl f (lastSeg "APIRoute") g ("APIRoute", info))
      f "APIRoute.handle" = true := by
  unfold instSym
  dsimp only
  rw [if_pos htype,
    if_pos (show (if containsStr "APIRoute" "." = true then
        lastSeg "APIRoute" else "APIRoute") = lastSeg "APIRoute" by decide)]
  refine foldl_estab
    (P := fun g => hasEdge g f "APIRoute.handle" = true)
    (x := "APIRoute.handle") ?_ ?_ (importantMethods "APIRoute") _ (by decide)
  · intro g2
    exact apiInstMethod_estab sl f hh g2
  · intro g2 m hg
    exact instMethod_pres
      (fun g => hasEdge g f "APIRoute.handle" = true)
      (fun g a b r hg2 _ => hasEdge_addEdge g a b f "APIRoute.handle" r hg2)
      sl f g2 m hg

theorem apiInstOne_estab (sl : List (String × SymbolInfo)) (f : String)
    (info : SymbolInfo) (hlk : dlookup sl "APIRoute" = some info)
    (htype : info.type = "class")
    (hh : dcontains sl "APIRoute.handle" = true) (g : Graph) :
    hasEdge (instOne sl f g "APIRoute") f "APIRoute.handle" = true := by
  unfold instOne
  refine foldl_estab
    (P := fun g => hasEdge g f "APIRoute.handle" = true) ?_ ?_ sl g
    (dlookup_mem hlk)
  · intro g
    exact apiInstSym_estab sl f info htype hh g
  · intro g se hg
    exact instSym_pres (fun g => hasEdge g f "APIRoute.handle" = true)
      (fun g a b r hg2 _ => hasEdge_addEdge g a b f "APIRoute.handle" r hg2)
      sl f (lastSeg "APIRoute") g se hg

theorem apiInstEntry_estab (sl : List (String × SymbolInfo)) (f : String)
    (insf : List String) (info : SymbolInfo)
    (hlk : dlookup sl "APIRoute" = some info) (htype : info.type = "class")
    (hh : dcontains sl "APIRoute.handle" = true)
    (hmem : "APIRoute" ∈ insf) (g : Graph) :
    hasEdge (instEntry sl g (f, insf)) f "APIRoute.handle" = true := by
  unfold instEntry
  dsimp only
  refine foldl_estab
    (P := fun g => hasEdge g f "APIRoute.handle" = true) ?_ ?_ insf g hmem
  · intro g
    exact apiInstOne_estab sl f info hlk htype hh g
  · intro g cc hg
    exact instOne_pres (fun g => hasEdge g f "APIRoute.handle" = true)
      (fun g a b r hg2 _ => hasEdge_addEdge g a b f "APIRoute.handle" r hg2)
      sl f g cc hg

theorem apiResolveInst_estab (sl : List (String × SymbolInfo))
    (si : List (String × List String)) (f : String) (insf : List String)
    (info : SymbolInfo) (hlk : dlookup sl "APIRoute" = some info)
    (htype : info.type = "class")
    (hh : dcontains sl "APIRoute.handle" = true)
    (hif : (f, insf) ∈ si) (hmem : "APIRoute" ∈ insf) (g : Graph) :
    hasEdge (resolveInstG sl si g) f "APIRoute.handle" = true := by
  unfold resolveInstG
  refine foldl_estab
    (P := fun g => hasEdge g f "APIRoute.handle" = true) ?_ ?_ si g hif
  · intro g
    exact apiInstEntry_estab sl f insf info hlk htype hh hmem g
  · intro g ce hg
    exact instEntry_pres (fun g => hasEdge g f "APIRoute.handle" = true)
      (fun g a b r hg2 _ => hasEdge_addEdge g a b f "APIRoute.handle" r hg2)
      sl g ce hg

/-! ## Claim theorems -/

/-- Claim C1, counterexample: in the spec's own scenario (a function `f`
containing the instantiation-candidate call `APIRoute(...)`, the symbol
table holding class `APIRoute` with method `APIRoute.handle`) the finished
graph tags the edge `f → APIRoute` as `calls`, not `instantiates`: call
resolution's exact-name rule fires on the same callee text first, and the
instantiation pass's `add_edge` is guarded by `has_edge`, so it never
writes its tag. -/
theorem C1_counterexample :
    (dlookup (buildTS [apiFile]).symbol_locations "APIRoute").map
        SymbolInfo.type = some "class"
    ∧ dcontains (buildTS [apiFile]).symbol_locations "APIRoute.handle" = true
    ∧ "APIRoute" ∈ dlookupD (buildTS [apiFile]).symbol_instantiates "f" []
    ∧ getRel (buildTS [apiFile]).graph "f" "APIRoute" = some ERel.calls
    ∧ getRel (buildTS [apiFile]).graph "f" "APIRoute"
        ≠ some ERel.instantiates := by
  decide

/-- Claim C1, amended, universally: for every function `f` whose call set
contains the callee text `APIRoute` (every instantiation candidate is
also in the call set) and whose instantiation set contains it, when the
symbol table holds a class `APIRoute` and the symbol `APIRoute.handle`:
the finished graph carries an edge `f → APIRoute` tagged `calls` — or
`references` when the unguarded cross-file reference sweep has retagged
it — and never `instantiates`; the edge `f → APIRoute.handle` always
exists; and whenever that edge still carries `instantiates_uses` at query
time, `APIRoute.handle` is a member of
`query_blast_radius(f).instantiated_methods`. -/
theorem C1_amended (disk : List PFile) (b : Builder) (f : String)
    (cf insf : List String) (info : SymbolInfo)
    (hcf : (f, cf) ∈ b.symbol_calls) (hcall : "APIRoute" ∈ cf)
    (hif : (f, insf) ∈ b.symbol_instantiates) (hinst : "APIRoute" ∈ insf)
    (hlk : dlookup b.symbol_locations "APIRoute" = some info)
    (htype : info.type = "class")
    (hh : dcontains b.symbol_locations "APIRoute.handle" = true)
    (hnode : f ∈ b.graph.nodes) :
    (getRel (resolveDependencies disk b).graph f "APIRoute"
        = some ERel.calls
      ∨ getRel (resolveDependencies disk b).graph f "APIRoute"
          = some ERel.references)
    ∧ getRel (resolveDependencies disk b).graph f "APIRoute"
        ≠ some ERel.instantiates
    ∧ hasEdge (resolveDependencies disk b).graph f "APIRoute.handle" = true
    ∧ (getRel (resolveDependencies disk b).graph f "APIRoute.handle"
          = some ERel.instantiates_uses →
        "APIRoute.handle" ∈
          (queryBlastRadius (resolveDependencies disk b)
            f).instantiated_methods) := by
  have hcls : dcontains b.symbol_locations "APIRoute" = true := by
    unfold dcontains
    rw [hlk]
    rfl
  have hres : (resolveDependencies disk b).graph
      = resolveRefsG disk b.file_symbols b.symbol_locations
          (resolveInstG b.symbol_locations b.symbol_instantiates
            (resolveCallsG b.symbol_locations b.symbol_calls
              (resolveImportsG b.file_symbols b.imports b.graph))) := rfl
  have h2 : getRel
      (resolveCallsG b.symbol_locations b.symbol_calls
        (resolveImportsG b.file_symbols b.imports b.graph)) f "APIRoute"
      = some ERel.calls :=
    apiResolveCalls_estab _ _ f cf hcls hcf hcall _
  have h3 : getRel
      (resolveInstG b.symbol_locations b.symbol_instantiates
        (resolveCallsG b.symbol_locations b.symbol_calls
          (resolveImportsG b.file_symbols b.imports b.graph))) f "APIRoute"
      = some ERel.calls :=
    resolveInstG_pres (fun g => getRel g f "APIRoute" = some ERel.calls)
      (fun g a b2 r hg hc => getRel_addEdge_guarded hg hc) _ _ _ h2
  have h4 : getRel
        (resolveRefsG disk b.file_symbols b.symbol_locations
          (resolveInstG b.symbol_locations b.symbol_instantiates
            (resolveCallsG b.symbol_locations b.symbol_calls
              (resolveImportsG b.file_symbols b.imports b.graph))))
        f "APIRoute" = some ERel.calls
      ∨ getRel
        (resolveRefsG disk b.file_symbols b.symbol_locations
          (resolveInstG b.symbol_locations b.symbol_instantiates
            (resolveCallsG b.symbol_locations b.symbol_calls
              (resolveImportsG b.file_symbols b.imports b.graph))))
        f "APIRoute" = some ERel.references := by
    refine resolveRefsG_pres
      (fun g => getRel g f "APIRoute" = some ERel.calls
        ∨ getRel g f "APIRoute" = some ERel.references)
      ?_ disk _ _ _ (Or.inl h3)
    intro g a b2 r hg hc
    subst hc
    rcases Decidable.em (a = f ∧ b2 = "APIRoute") with hp | hp
    · obtain ⟨rfl, rfl⟩ := hp
      exact Or.inr (getRel_addEdge_same g _ _ ERel.references)
    · rw [getRel_addEdge_other g a b2 f "APIRoute" ERel.references hp]
      exact hg
  have hQ : hasEdge
      (resolveRefsG disk b.file_symbols b.symbol_locations
        (resolveInstG b.symbol_locations b.symbol_instantiates
          (resolveCallsG b.symbol_locations b.symbol_calls
            (resolveImportsG b.file_symbols b.imports b.graph))))
      f "APIRoute.handle" = true :=
    resolveRefsG_pres (fun g => hasEdge g f "APIRoute.handle" = true)
      (fun g a b2 r hg _ => hasEdge_addEdge g a b2 f "APIRoute.handle" r hg)
      disk _ _ _
      (apiResolveInst_estab _ _ f insf info hlk htype hh hif hinst _)
  have hnodeR : f ∈ (resolveDependencies disk b).graph.nodes :=
    resolveDependencies_pres (fun g => f ∈ g.nodes)
      (fun g a b2 r hg _ => mem_addEdge g a b2 f r hg) disk b hnode
  refine ⟨?_, ?_, ?_, ?_⟩
  · rw [hres]
    exact h4
  · rw [hres]
    rcases h4 with h | h <;> rw [h] <;> decide
  · rw [hres]
    exact hQ
  · intro hiu
    rw [queryBlastRadius_pos hnodeR]
    show "APIRoute.handle" ∈
      (computeBlast (resolveDependencies disk b) f).instantiated_methods
    refine mem_blast_inst_of_succ ?_ hiu
    refine hasEdge_iff_mem_succs.mp ?_
    rw [hres]
    exact hQ

theorem C1_amended_witness :
    ((("f", ["APIRoute"]) ∈ (parseProject [apiFile]).symbol_calls
      ∧ ("f", ["APIRoute"]) ∈ (parseProject [apiFile]).symbol_instantiates
      ∧ dlookup (parseProject [apiFile]).symbol_locations "APIRoute"
          = some apiRouteInfo
      ∧ apiRouteInfo.type = "class"
      ∧ dcontains (parseProject [apiFile]).symbol_locations "APIRoute.handle"
          = true
      ∧ "f" ∈ (parseProject [apiFile]).graph.nodes)
    ∧ ((getRel (resolveDependencies [apiFile] (parseProject [apiFile])).graph
          "f" "APIRoute" = some ERel.calls
        ∨ getRel
            (resolveDependencies [apiFile] (parseProject [apiFile])).graph
            "f" "APIRoute" = some ERel.references)
      ∧ getRel (resolveDependencies [apiFile] (parseProject [apiFile])).graph
          "f" "APIRoute" ≠ some ERel.instantiates
      ∧ hasEdge (resolveDependencies [apiFile] (parseProject [apiFile])).graph
          "f" "APIRoute.handle" = true
      ∧ (getRel (resolveDependencies [apiFile] (parseProject [apiFile])).graph
            "f" "APIRoute.handle" = some ERel.instantiates_uses →
          "APIRoute.handle" ∈
            (queryBlastRadius (resolveDependencies [apiFile]
              (parseProject [apiFile])) "f").instantiated_methods))) :=
  ⟨⟨by decide, by decide, by decide, by decide, by decide, by decide⟩,
    C1_amended [apiFile] (parseProject [apiFile]) "f" ["APIRoute"]
      ["APIRoute"] apiRouteInfo (by decide) (by decide) (by decide)
      (by decide) (by decide) (by decide) (by decide) (by decide)⟩

/-- Claim C2, counterexample: the edge `f → helper` is added by the
first sub-pass tagged `uses`, re-tagged `calls` by the (unguarded) exact
match of call resolution, and re-tagged `references` by the (unguarded)
reference sweep — an edge added by an earlier sub-pass does not keep its
relation tag, so the pass is not monotonic in the claimed sense. -/
theorem C2_counterexample :
    getRel
        (resolveImportsG (parseProject [helperFileA, helperFileB]).file_symbols
          (parseProject [helperFileA, helperFileB]).imports
          (parseProject [helperFileA, helperFileB]).graph)
        "f" "helper" = some ERel.uses
    ∧ getRel
        (resolveCallsG (parseProject [helperFileA, helperFileB]).symbol_locations
          (parseProject [helperFileA, helperFileB]).symbol_calls
          (resolveImportsG (parseProject [helperFileA, helperFileB]).file_symbols
            (parseProject [helperFileA, helperFileB]).imports
            (parseProject [helperFileA, helperFileB]).graph))
        "f" "helper" = some ERel.calls
    ∧ getRel (buildTS [helperFileA, helperFileB]).graph "f" "helper"
        = some ERel.references
    ∧ (ERel.uses ≠ ERel.calls ∧ ERel.calls ≠ ERel.references) := by
  decide

/-- Claim C2, amended: `_resolve_dependencies` never removes an edge —
every ordered pair carrying an edge when the pass starts (or at any point
during it) still carries an edge when it finishes — but a later unguarded
`add_edge` (the exact-match call rule and the reference sweep) may
rewrite the relation tag of an existing edge. -/
theorem C2_monotone_edge_pairs (disk : List PFile) (b : Builder)
    (u v : String) (h : hasEdge b.graph u v = true) :
    hasEdge (resolveDependencies disk b).graph u v = true :=
  resolveDependencies_pres (fun g => hasEdge g u v = true)
    (fun g a b2 r hg _ => hasEdge_addEdge g a b2 u v r hg) disk b h

theorem C2_monotone_edge_pairs_witness :
    hasEdge (parseProject [apiFile]).graph "APIRoute" "APIRoute.handle" = true
    ∧ hasEdge
        (resolveDependencies [apiFile] (parseProject [apiFile])).graph
        "APIRoute" "APIRoute.handle" = true :=
  ⟨by decide,
    C2_monotone_edge_pairs [apiFile] (parseProject [apiFile])
      "APIRoute" "APIRoute.handle" (by decide)⟩

/-- Claim C3: the two parsers do not produce the same record shape.  On
the same one-function file, the tree-sitter path stores the keys
`file, line, end_line, code, type`, while the regex fallback stores only
`file, line, code, type` (and its `code` is just the header line) — so
downstream code can distinguish which parser ran, contradicting the
spec's required shape equality. -/
theorem C3_record_shapes :
    (dlookup (buildTS [plainFile]).symbol_locations "f").map recFields
      = some ["file", "line", "end_line", "code", "type"]
    ∧ (dlookup (buildRegex [plainFile]).symbol_locations "f").map recFields
      = some ["file", "line", "code", "type"]
    ∧ (["file", "line", "end_line", "code", "type"] : List String)
      ≠ ["file", "line", "code", "type"] := by
  decide

/-- Claim C4, counterexample: a `DiGraph` cannot hold two edges on the
same ordered pair — adding `u → v` as `calls` and then as `uses` leaves a
single edge whose tag is `uses`; the first tag is overwritten, not kept
alongside. -/
theorem C4_counterexample :
    (addEdge (addEdge gEmpty "u" "v" ERel.calls) "u" "v" ERel.uses).edges
      = [("u", "v", ERel.uses)]
    ∧ pairCount (addEdge (addEdge gEmpty "u" "v" ERel.calls) "u" "v"
        ERel.uses) "u" "v" = 1 := by
  decide

/-- Claim C4, amended: each ordered pair holds at most one edge; adding
an edge always leaves exactly one edge on the pair, carrying the
last-written tag; re-adding with the tag already present leaves the
graph entirely unchanged. -/
theorem C4_edge_overwrite (g : Graph) (u v : String) (r : ERel)
    (h : pairCount g u v ≤ 1) :
    getRel (addEdge g u v r) u v = some r
    ∧ pairCount (addEdge g u v r) u v = 1
    ∧ (getRel g u v = some r → u ∈ g.nodes → v ∈ g.nodes →
        addEdge g u v r = g) :=
  ⟨getRel_addEdge_same g u v r, pairCount_addEdge g u v r h,
    fun hr hu hv => addEdge_id hr h hu hv⟩

theorem C4_edge_overwrite_witness :
    pairCount (addEdge gEmpty "u" "v" ERel.calls) "u" "v" ≤ 1
    ∧ (getRel (addEdge (addEdge gEmpty "u" "v" ERel.calls) "u" "v" ERel.uses)
          "u" "v" = some ERel.uses
      ∧ pairCount (addEdge (addEdge gEmpty "u" "v" ERel.calls) "u" "v"
          ERel.uses) "u" "v" = 1
      ∧ (getRel (addEdge gEmpty "u" "v" ERel.calls) "u" "v" = some ERel.uses →
          "u" ∈ (addEdge gEmpty "u" "v" ERel.calls).nodes →
          "v" ∈ (addEdge gEmpty "u" "v" ERel.calls).nodes →
          addEdge (addEdge gEmpty "u" "v" ERel.calls) "u" "v" ERel.uses
            = addEdge gEmpty "u" "v" ERel.calls)) :=
  ⟨by decide,
    C4_edge_overwrite (addEdge gEmpty "u" "v" ERel.calls) "u" "v" ERel.uses
      (by decide)⟩

/-- Claim C5, counterexample: the `contains` edge `C → C.m` is created at
parse time, but in a project where another file defines a colliding
`class C` and its raw text mentions `m`, the (unguarded) reference sweep
re-tags the edge as `references`, so the finished graph does not carry
the `contains` tag the claim requires. -/
theorem C5_counterexample :
    getRel (parseProject [klassFileA, klassFileB]).graph "C" "C.m"
      = some ERel.contains
    ∧ getRel (buildTS [klassFileA, klassFileB]).graph "C" "C.m"
      = some ERel.references
    ∧ (ERel.references ≠ ERel.contains) := by
  decide

/-- Claim C5, amended: for a class `C` with method `m` (so the parsed
state carries an edge `C → C.m`, tagged `contains`, hence in particular
not `instantiates_uses` — no pass ever writes `instantiates_uses` onto an
existing pair), the finished graph always still has an edge `C → C.m`
(possibly re-tagged `calls` or `references` under cross-file name
collisions), and `C.m` is always a member of
`query_blast_radius(C).dependencies`. -/
theorem C5_contains_dependencies (disk : List PFile) (b : Builder)
    (c m : String) (hedge : hasEdge b.graph c m = true)
    (hrel : getRel b.graph c m ≠ some ERel.instantiates_uses)
    (hnode : c ∈ b.graph.nodes) :
    hasEdge (resolveDependencies disk b).graph c m = true
    ∧ m ∈ (queryBlastRadius (resolveDependencies disk b) c).dependencies := by
  have hinv : EdgeInv c m (resolveDependencies disk b).graph :=
    resolveDependencies_pres (EdgeInv c m)
      (fun g a b2 r hg hc => EdgeInv_addEdge a b2 r hg (hc.imp And.left id))
      disk b ⟨hedge, hrel⟩
  have hnode2 : c ∈ (resolveDependencies disk b).graph.nodes :=
    resolveDependencies_pres (fun g => c ∈ g.nodes)
      (fun g a b2 r hg _ => mem_addEdge g a b2 c r hg) disk b hnode
  refine ⟨hinv.1, ?_⟩
  rw [queryBlastRadius_pos hnode2]
  show m ∈ (computeBlast (resolveDependencies disk b) c).dependencies
  exact mem_dependencies_of_succ (hasEdge_iff_mem_succs.mp hinv.1) hinv.2

theorem C5_contains_dependencies_witness :
    (hasEdge (parseProject [klassFileA]).graph "C" "C.m" = true
      ∧ getRel (parseProject [klassFileA]).graph "C" "C.m"
          ≠ some ERel.instantiates_uses
      ∧ "C" ∈ (parseProject [klassFileA]).graph.nodes)
    ∧ (hasEdge
          (resolveDependencies [klassFileA] (parseProject [klassFileA])).graph
          "C" "C.m" = true
      ∧ "C.m" ∈ (queryBlastRadius
          (resolveDependencies [klassFileA] (parseProject [klassFileA]))
          "C").dependencies) :=
  ⟨⟨by decide, by decide, by decide⟩,
    C5_contains_dependencies [klassFileA] (parseProject [klassFileA])
      "C" "C.m" (by decide) (by decide) (by decide)⟩

/-- Claim C6: for a symbol resolved exactly in the graph, the dependents
set of `query_blast_radius` is exactly the direct predecessors together
with the predecessors of those predecessors — two hops, never the full
transitive closure. -/
theorem C6_dependents_two_hops (b : Builder) (s x : String)
    (hs : s ∈ b.graph.nodes) :
    x ∈ (queryBlastRadius b s).dependents ↔
      x ∈ preds b.graph s ∨ ∃ p ∈ preds b.graph s, x ∈ preds b.graph p := by
  rw [queryBlastRadius_pos hs]
  show x ∈ (computeBlast b s).dependents ↔ _
  exact mem_dependents_iff

theorem C6_dependents_two_hops_witness :
    "s" ∈ chainBuilder.graph.nodes
    ∧ "x3" ∉ (queryBlastRadius chainBuilder "s").dependents :=
  ⟨by decide,
    fun h =>
      absurd ((C6_dependents_two_hops chainBuilder "s" "x3" (by decide)).mp h)
        (by decide)⟩

/-- Claim C7: `blast_radius_size` is the plain sum of the sizes of
`dependents`, `dependencies` and `instantiated_methods` (no deduplication
across the three sets), and a symbol with no predecessors and no
successors gets exactly 0. -/
theorem C7_blast_radius_size (b : Builder) (s : String)
    (hs : s ∈ b.graph.nodes) :
    (queryBlastRadius b s).blast_radius_size =
      (queryBlastRadius b s).dependents.length +
        (queryBlastRadius b s).dependencies.length +
        (queryBlastRadius b s).instantiated_methods.length
    ∧ (preds b.graph s = [] → succs b.graph s = [] →
        (queryBlastRadius b s).blast_radius_size = 0) := by
  rw [queryBlastRadius_pos hs]
  exact ⟨computeBlast_size b s,
    fun hp hsuc => computeBlast_isolated b s hp hsuc⟩

theorem C7_blast_radius_size_witness :
    "lonely" ∈ isoBuilder.graph.nodes
    ∧ (queryBlastRadius isoBuilder "lonely").blast_radius_size = 0 :=
  ⟨by decide,
    (C7_blast_radius_size isoBuilder "lonely" (by decide)).2 (by decide)
      (by decide)⟩

/-- Claim C8: `build` is deterministic in its input — two builds over the
same discovered files (same contents, same enumeration order) produce the
same node set and the same edge list (hence the same multiset of
`(source, target, relation)` triples). -/
theorem C8_build_deterministic (fs1 fs2 : List PFile) (h : fs1 = fs2) :
    (buildTS fs1).graph.nodes = (buildTS fs2).graph.nodes
    ∧ (buildTS fs1).graph.edges = (buildTS fs2).graph.edges := by
  subst h
  exact ⟨rfl, rfl⟩

theorem C8_build_deterministic_witness :
    ([apiFile] : List PFile) = [apiFile]
    ∧ ((buildTS [apiFile]).graph.nodes = (buildTS [apiFile]).graph.nodes
      ∧ (buildTS [apiFile]).graph.edges = (buildTS [apiFile]).graph.edges) :=
  ⟨rfl, C8_build_deterministic [apiFile] [apiFile] rfl⟩

/-- Claim C9: a file whose read fails contributes nothing — `build` over
a file list containing an unreadable path (no other discovered file
sharing that path) equals `build` over the list without it: no symbols,
no file record, no edges, and no error surfaced. -/
theorem C9_unreadable_file_skipped (l1 l2 : List PFile) (bad : PFile)
    (hb : bad.content = none)
    (hfresh : ∀ f ∈ l1 ++ l2, f.relPath ≠ bad.relPath) :
    buildTS (l1 ++ bad :: l2) = buildTS (l1 ++ l2) := by
  have hparse : parseProject (l1 ++ bad :: l2) = parseProject (l1 ++ l2) := by
    unfold parseProject
    rw [List.foldl_append, List.foldl_append, List.foldl_cons,
      buildStep_none hb]
  unfold buildTS
  rw [hparse]
  unfold resolveDependencies
  rw [resolveRefsG_congr (readDisk_skip hb hfresh)]

theorem C9_unreadable_file_skipped_witness :
    badFile.content = none
    ∧ (∀ f ∈ ([apiFile] : List PFile) ++ [],
        f.relPath ≠ badFile.relPath)
    ∧ buildTS ([apiFile] ++ badFile :: []) = buildTS ([apiFile] ++ []) :=
  ⟨rfl, by decide,
    C9_unreadable_file_skipped [apiFile] [] badFile rfl (by decide)⟩

/-- Claim C10: when the queried symbol `s` has a predecessor `p` that is
also its successor (mutual edges), the second predecessor hop re-reaches
`s` itself, so `s` appears in its own dependents set and is counted in
`blast_radius_size`. -/
theorem C10_self_dependent (b : Builder) (s p : String)
    (hs : s ∈ b.graph.nodes)
    (h1 : hasEdge b.graph p s = true) (h2 : hasEdge b.graph s p = true) :
    s ∈ (queryBlastRadius b s).dependents
    ∧ 0 < (queryBlastRadius b s).blast_radius_size := by
  rw [queryBlastRadius_pos hs]
  have hmem : s ∈ (computeBlast b s).dependents :=
    mem_dependents_iff.mpr
      (Or.inr ⟨p, hasEdge_iff_mem_preds.mp h1, hasEdge_iff_mem_preds.mp h2⟩)
  refine ⟨hmem, ?_⟩
  show 0 < (computeBlast b s).blast_radius_size
  rw [computeBlast_size]
  have hne : (computeBlast b s).dependents ≠ [] := List.ne_nil_of_mem hmem
  have hlen : 0 < (computeBlast b s).dependents.length :=
    List.length_pos.mpr hne
  omega

theorem C10_self_dependent_witness :
    ("s" ∈ mutualBuilder.graph.nodes
      ∧ hasEdge mutualBuilder.graph "a" "s" = true
      ∧ hasEdge mutualBuilder.graph "s" "a" = true)
    ∧ ("s" ∈ (queryBlastRadius mutualBuilder "s").dependents
      ∧ 0 < (queryBlastRadius mutualBuilder "s").blast_radius_size) :=
  ⟨⟨by decide, by decide, by decide⟩,
    C10_self_dependent mutualBuilder "s" "a" (by decide) (by decide)
      (by decide)⟩
